import Mathlib

/-!
# Verification of the pyannote-generators batch/sampling engine

Shallow embedding of `pyannote/generators` (batch.py, fragment.py,
indices.py, background.py) and proofs of the specified properties.

Signature trees, fragments and batch accumulators are Python nested
lists / tuples / dicts; we embed them as nested inductive types where a
mapping containing a `'type'` key is the terminal constructor (`term`)
and structural mappings (`sdict`) never contain a `'type'` key.
-/

namespace PyGen

/-- A signature node (`batch.py` signatures): a terminal mapping with a
`'type'` key (`term t` stands for the Python dict `{'type': t, ...}`),
an ordered sequence (`list`), a fixed tuple, or a structural mapping
without a `'type'` key (insertion-ordered association list, as Python
dicts are). -/
inductive Sig where
  | term : String → Sig
  | slist : List Sig → Sig
  | stup : List Sig → Sig
  | sdict : List (String × Sig) → Sig


/-- One fragment yielded by a sampler: an opaque leaf value or a
structural composite mirroring the signature. -/
inductive Frag (α : Type) where
  | val : α → Frag α
  | flist : List (Frag α) → Frag α
  | ftup : List (Frag α) → Frag α
  | fdict : List (String × Frag α) → Frag α


/-- A batch accumulator (`_batch_new` result): the output-signature tree
with an ordered list of appended fragments at every terminal leaf. -/
inductive BAcc (α : Type) where
  | leaf : List (Frag α) → BAcc α
  | blist : List (BAcc α) → BAcc α
  | btup : List (BAcc α) → BAcc α
  | bdict : List (String × BAcc α) → BAcc α


/-- A packed batch (`_batch_pack` result): `stacked vs` abstracts the
`np.stack`/`np.vstack` of the accumulated values at a `'batch'` leaf
(the stacked array whose leading dimension is `vs.length`); `plain vs`
is the pass-through result for any other terminal type. -/
inductive Packed (α : Type) where
  | stacked : List (Frag α) → Packed α
  | plain : List (Frag α) → Packed α
  | plist : List (Packed α) → Packed α
  | ptup : List (Packed α) → Packed α
  | pdict : List (String × Packed α) → Packed α


mutual
/-- `BaseBatchGenerator._batch_signature`: replace every terminal leaf
by `{'type': 'batch'}`, preserving the structure. -/
def batchSignature : Sig → Sig
  | .term _ => .term "batch"
  | .slist xs => .slist (batchSignatureList xs)
  | .stup xs => .stup (batchSignatureList xs)
  | .sdict fs => .sdict (batchSignatureFields fs)

def batchSignatureList : List Sig → List Sig
  | [] => []
  | x :: xs => batchSignature x :: batchSignatureList xs

def batchSignatureFields : List (String × Sig) → List (String × Sig)
  | [] => []
  | (k, v) :: fs => (k, batchSignature v) :: batchSignatureFields fs
end

mutual
/-- `BaseBatchGenerator._batch_new(signature_out)`: an empty accumulator
mirroring the output signature, with an empty list at every terminal
leaf (the Python `else: return []` branch). -/
def batchNew : Sig → BAcc α
  | .term _ => .leaf []
  | .slist xs => .blist (batchNewList xs)
  | .stup xs => .btup (batchNewList xs)
  | .sdict fs => .bdict (batchNewFields fs)

def batchNewList : List Sig → List (BAcc α)
  | [] => []
  | x :: xs => batchNew x :: batchNewList xs

def batchNewFields : List (String × Sig) → List (String × BAcc α)
  | [] => []
  | (k, v) :: fs => (k, batchNew v) :: batchNewFields fs
end

mutual
/-- `Frag.matches f s`: the fragment's tree shape mirrors the signature
exactly (the invariant the samplers guarantee for their yields); for a
mapping node, same keys in the same insertion order. -/
def Frag.matches {α : Type} : Frag α → Sig → Bool
  | .val _, .term _ => true
  | .flist fs, .slist ss => Frag.matchesList fs ss
  | .ftup fs, .stup ss => Frag.matchesList fs ss
  | .fdict ffs, .sdict sfs => Frag.matchesFields ffs sfs
  | _, _ => false

def Frag.matchesList {α : Type} : List (Frag α) → List Sig → Bool
  | [], [] => true
  | f :: fs, s :: ss => Frag.matches f s && Frag.matchesList fs ss
  | _, _ => false

def Frag.matchesFields {α : Type} : List (String × Frag α) → List (String × Sig) → Bool
  | [], [] => true
  | (k, f) :: fs, (k', s) :: ss =>
      k == k' && Frag.matches f s && Frag.matchesFields fs ss
  | _, _ => false
end

mutual
/-- `Sig.wellformed`: every mapping node has pairwise distinct keys
(Python dicts cannot hold duplicate keys) and no structural mapping
uses the reserved key `'type'` (such a dict would be a terminal). -/
def Sig.wellformed : Sig → Bool
  | .term _ => true
  | .slist xs => Sig.wellformedList xs
  | .stup xs => Sig.wellformedList xs
  | .sdict fs =>
      (fs.map Prod.fst).Nodup && !((fs.map Prod.fst).contains "type")
        && Sig.wellformedFields fs

def Sig.wellformedList : List Sig → Bool
  | [] => true
  | x :: xs => Sig.wellformed x && Sig.wellformedList xs

def Sig.wellformedFields : List (String × Sig) → Bool
  | [] => true
  | (_, v) :: fs => Sig.wellformed v && Sig.wellformedFields fs
end

/-- Junk fragment used where the Python code would raise
(`KeyError`, unreachable under the matching hypotheses). -/
def junkFrag : Frag α := .flist []

/-- Junk signature (unreachable default for failed lookups). -/
def junkSig : Sig := .slist []

/-- Junk accumulator (unreachable default for failed lookups). -/
def junkBAcc : BAcc α := .blist []

mutual
/-- `BaseBatchGenerator._batch_add(fragment, signature_in, signature_out,
batch)` with the default pass-through `process_<type>` hooks of the base
class: descend input and output signatures in parallel; at a terminal
input leaf append the (identity-processed) fragment to the leaf
accumulator. Python mutates `batch` in place; we return the new batch.
The mapping case iterates over the output signature's keys (`for key in
signature_out`) and looks the other trees up by key, as the source does;
a failed lookup (Python `KeyError`) yields the junk defaults, unreachable
under the lock-step hypotheses. On a shape mismatch (unreachable when
the fragment matches the signature) the accumulator is left unchanged. -/
def batchAdd {α : Type} : Frag α → Sig → Sig → BAcc α → BAcc α
  | f, .term _, _, b =>
      match b with
      | .leaf vs => .leaf (vs ++ [f])
      | b => b
  | f, .slist sis, so, b =>
      match so, f, b with
      | .slist sos, .flist ff, .blist bb => .blist (batchAddZip ff sis sos bb)
      | _, _, b => b
  | f, .stup sis, so, b =>
      match so, f, b with
      | .stup sos, .ftup ff, .btup bb => .btup (batchAddZip ff sis sos bb)
      | _, _, b => b
  | f, .sdict fsi, so, b =>
      match so, f, b with
      | .sdict fso, .fdict ff, .bdict bb =>
          .bdict (batchAddFields ff fsi fso bb)
      | _, _, b => b

def batchAddZip {α : Type} :
    List (Frag α) → List Sig → List Sig → List (BAcc α) → List (BAcc α)
  | f :: ff, si :: sis, so :: sos, b :: bb =>
      batchAdd f si so b :: batchAddZip ff sis sos bb
  | _, _, _, bb => bb

def batchAddFields {α : Type} (ff : List (String × Frag α))
    (fsi : List (String × Sig)) :
    List (String × Sig) → List (String × BAcc α) → List (String × BAcc α)
  | [], _ => []
  | (k, soSub) :: fso, bb =>
      (k, batchAdd ((ff.lookup k).getD junkFrag)
                   ((fsi.lookup k).getD junkSig) soSub
                   ((bb.lookup k).getD junkBAcc))
        :: batchAddFields ff fsi fso bb
end

mutual
/-- `BaseBatchGenerator._batch_pack(signature_out, batch)`: descend the
output signature; at a terminal leaf dispatch on the type name —
`'batch'`, `'ndarray'` and `'scalar'` have stacking pack hooks
(`np.stack`/`np.vstack`/`np.array`, abstracted by `Packed.stacked`),
every other type falls back to the pass-through (`Packed.plain`). -/
def batchPack {α : Type} : Sig → BAcc α → Packed α
  | .term t, .leaf vs =>
      if t == "batch" || t == "ndarray" || t == "scalar" then .stacked vs
      else .plain vs
  | .slist sos, .blist bb => .plist (batchPackZip sos bb)
  | .stup sos, .btup bb => .ptup (batchPackZip sos bb)
  | .sdict fso, .bdict bb => .pdict (batchPackFields fso bb)
  | _, _ => .plist []

def batchPackZip {α : Type} : List Sig → List (BAcc α) → List (Packed α)
  | so :: sos, b :: bb => batchPack so b :: batchPackZip sos bb
  | _, _ => []

def batchPackFields {α : Type} :
    List (String × Sig) → List (String × BAcc α) → List (String × Packed α)
  | (k, so) :: fso, bb =>
      (k, batchPack so ((bb.lookup k).getD junkBAcc)) :: batchPackFields fso bb
  | [], _ => []
end

mutual
/-- `BAcc.matchesSig b s`: the accumulator tree mirrors the signature
tree `s` (same containers, same lengths, same keys in order, a leaf
accumulator at every terminal). -/
def BAcc.matchesSig {α : Type} : BAcc α → Sig → Bool
  | .leaf _, .term _ => true
  | .blist bb, .slist ss => BAcc.matchesSigList bb ss
  | .btup bb, .stup ss => BAcc.matchesSigList bb ss
  | .bdict bf, .sdict sf => BAcc.matchesSigFields bf sf
  | _, _ => false

def BAcc.matchesSigList {α : Type} : List (BAcc α) → List Sig → Bool
  | [], [] => true
  | b :: bb, s :: ss => BAcc.matchesSig b s && BAcc.matchesSigList bb ss
  | _, _ => false

def BAcc.matchesSigFields {α : Type} :
    List (String × BAcc α) → List (String × Sig) → Bool
  | [], [] => true
  | (k, b) :: bb, (k', s) :: ss =>
      k == k' && BAcc.matchesSig b s && BAcc.matchesSigFields bb ss
  | _, _ => false
end

mutual
/-- `Packed.hasShape p s`: the packed batch's tree shape (nesting of
lists/tuples/mappings down to the terminal leaves) equals the
signature tree's shape. -/
def Packed.hasShape {α : Type} : Packed α → Sig → Bool
  | .stacked _, .term _ => true
  | .plain _, .term _ => true
  | .plist pp, .slist ss => Packed.hasShapeList pp ss
  | .ptup pp, .stup ss => Packed.hasShapeList pp ss
  | .pdict pf, .sdict sf => Packed.hasShapeFields pf sf
  | _, _ => false

def Packed.hasShapeList {α : Type} : List (Packed α) → List Sig → Bool
  | [], [] => true
  | p :: pp, s :: ss => Packed.hasShape p s && Packed.hasShapeList pp ss
  | _, _ => false

def Packed.hasShapeFields {α : Type} :
    List (String × Packed α) → List (String × Sig) → Bool
  | [], [] => true
  | (k, p) :: pp, (k', s) :: ss =>
      k == k' && Packed.hasShape p s && Packed.hasShapeFields pp ss
  | _, _ => false
end

mutual
/-- Number of terminal leaves of a signature tree. -/
def Sig.numLeaves : Sig → Nat
  | .term _ => 1
  | .slist xs => Sig.numLeavesList xs
  | .stup xs => Sig.numLeavesList xs
  | .sdict fs => Sig.numLeavesFields fs

def Sig.numLeavesList : List Sig → Nat
  | [] => 0
  | x :: xs => Sig.numLeaves x + Sig.numLeavesList xs

def Sig.numLeavesFields : List (String × Sig) → Nat
  | [] => 0
  | (_, v) :: fs => Sig.numLeaves v + Sig.numLeavesFields fs
end

mutual
/-- Lengths of the terminal leaf accumulators, in preorder. -/
def BAcc.leafSizes {α : Type} : BAcc α → List Nat
  | .leaf vs => [vs.length]
  | .blist bb => BAcc.leafSizesList bb
  | .btup bb => BAcc.leafSizesList bb
  | .bdict bf => BAcc.leafSizesFields bf

def BAcc.leafSizesList {α : Type} : List (BAcc α) → List Nat
  | [] => []
  | b :: bb => BAcc.leafSizes b ++ BAcc.leafSizesList bb

def BAcc.leafSizesFields {α : Type} : List (String × BAcc α) → List Nat
  | [] => []
  | (_, b) :: bb => BAcc.leafSizes b ++ BAcc.leafSizesFields bb
end

mutual
/-- Lengths of the stacked (or passed-through) terminal leaves of a
packed batch, in preorder: the leading dimension of each leaf array. -/
def Packed.leafSizes {α : Type} : Packed α → List Nat
  | .stacked vs => [vs.length]
  | .plain vs => [vs.length]
  | .plist pp => Packed.leafSizesList pp
  | .ptup pp => Packed.leafSizesList pp
  | .pdict pf => Packed.leafSizesFields pf

def Packed.leafSizesList {α : Type} : List (Packed α) → List Nat
  | [] => []
  | p :: pp => Packed.leafSizes p ++ Packed.leafSizesList pp

def Packed.leafSizesFields {α : Type} : List (String × Packed α) → List Nat
  | [] => []
  | (_, p) :: pf => Packed.leafSizes p ++ Packed.leafSizesFields pf
end

/-- Concrete signature used to witness the batch-assembly theorems:
`{'X': [{'type': 'segment'}, {'type': 'label'}], 'y': {'type': 'scalar'}}`. -/
def c1Sig : Sig :=
  .sdict [("X", .slist [.term "segment", .term "label"]), ("y", .term "scalar")]

/-- Two concrete fragments matching `c1Sig`. -/
def c1Frags : List (Frag Int) :=
  [.fdict [("X", .flist [.val 0, .val 1]), ("y", .val 2)],
   .fdict [("X", .flist [.val 3, .val 4]), ("y", .val 5)]]

/-- One item of the internal generator's stream consumed by
`iter_batches`: either the `EndOfBatch` sentinel singleton or a
fragment. -/
inductive StreamItem (α : Type) where
  | eob : StreamItem α
  | frag : Frag α → StreamItem α

/-- Loop state of `BaseBatchGenerator.iter_batches`: the current
accumulator `self.batch_`, the fragment count since the last flush
(the local `batch_size` variable) and the batches yielded so far. -/
structure IterState (α : Type) where
  batch : BAcc α
  count : Nat
  out : List (Packed α)

/-- One iteration of the `for fragment in self.generator` loop of
`iter_batches`: the sentinel sets `complete`; otherwise the fragment is
added and the count incremented; `complete |= self.batch_size > 0 and
batch_size == self.batch_size`; on `complete`, the batch is packed and
yielded when the count is nonzero (`if batch_size:`), and accumulator
and count are reset. `postprocess` is the identity in the base class
(no `postprocess_<type>` hooks are defined) and is omitted. -/
def iterBatchesStep {α : Type} (si so : Sig) (bsz : Int)
    (st : IterState α) (item : StreamItem α) : IterState α :=
  match item with
  | .eob =>
      if st.count ≠ 0 then
        ⟨batchNew so, 0, st.out ++ [batchPack so st.batch]⟩
      else ⟨batchNew so, 0, st.out⟩
  | .frag f =>
      let b := batchAdd f si so st.batch
      let c := st.count + 1
      if 0 < bsz ∧ (c : Int) = bsz then
        ⟨batchNew so, 0, st.out ++ [batchPack so b]⟩
      else ⟨b, c, st.out⟩

/-- `BaseBatchGenerator.iter_batches` run over a finite stream: fold the
per-item step, then yield the last incomplete batch when `incomplete`
is set and the count is positive. -/
def iterBatches {α : Type} (si : Sig) (bsz : Int) (incomplete : Bool)
    (stream : List (StreamItem α)) : List (Packed α) :=
  let so := batchSignature si
  let final := stream.foldl (iterBatchesStep si so bsz) ⟨batchNew so, 0, []⟩
  if 0 < final.count ∧ incomplete = true then
    final.out ++ [batchPack so final.batch]
  else final.out

/-- One source file record as seen by
`FileBasedBatchGenerator.__call__`: its unique identifier
(`get_unique_identifier(current_file)`) and the outcome of
`self.preprocess(current_file, identifier=uri)` followed by
`self.generator.from_file(preprocessed_file)`: either the preprocessing
exception (its message) or the finite list of fragments the inner
generator yields for this file. -/
structure PyFile (α : Type) where
  uri : String
  pre : Except String (List (Frag α))

/-- Result of a driver run: the batches yielded, the warnings issued
(`warnings.warn` in robust mode) and the propagated exception, if any
(in which case no further batch was yielded). -/
structure CallResult (α : Type) where
  batches : List (Packed α)
  warnings : List String
  error : Option String

/-- The robust-mode warning message for a file that failed
preprocessing (`'Cannot preprocess file "{uri}".'`). -/
def warnMsg (uri : String) : String :=
  "Cannot preprocess file " ++ uri ++ "."

/-- Processing of one successfully preprocessed file inside
`FileBasedBatchGenerator.__call__`: add every fragment the inner
generator yields (flushing whenever a positive `batch_size` is
reached), then, in mono-batch mode (`batch_size < 1`), pack and yield
once for this file unconditionally. -/
def fbProcessFile {α : Type} (si so : Sig) (bsz : Int) (st : IterState α)
    (frags : List (Frag α)) : IterState α :=
  let st1 := frags.foldl (fun s f => iterBatchesStep si so bsz s (.frag f)) st
  if bsz < 1 then
    (⟨batchNew so, 0, st1.out ++ [batchPack so st1.batch]⟩ : IterState α)
  else st1

/-- The per-file loop of `FileBasedBatchGenerator.__call__`: on a
preprocessing failure either warn and skip (`robust`) or stop with the
exception; otherwise process the file's fragments. Returns the final
loop state, the warnings and the propagated exception, if any. -/
def fbCallGo {α : Type} (si so : Sig) (bsz : Int) (robust : Bool) :
    List (PyFile α) → IterState α → List String →
      IterState α × List String × Option String
  | [], st, ws => (st, ws, none)
  | file :: rest, st, ws =>
      match file.pre with
      | .error e =>
          if robust then fbCallGo si so bsz robust rest st (ws ++ [warnMsg file.uri])
          else (st, ws, some e)
      | .ok frags =>
          fbCallGo si so bsz robust rest (fbProcessFile si so bsz st frags) ws

/-- `FileBasedBatchGenerator.__call__(file_generator, infinite=False,
robust, incomplete)` over a finite list of files: run the per-file
loop, then yield the final incomplete batch when `0 < batch_size <
self.batch_size` and `incomplete` (skipped when an exception
propagated). -/
def fbCall {α : Type} (si : Sig) (bsz : Int) (robust incomplete : Bool)
    (files : List (PyFile α)) : CallResult α :=
  let so := batchSignature si
  let r := fbCallGo si so bsz robust files ⟨batchNew so, 0, []⟩ []
  match r.2.2 with
  | some e => ⟨r.1.out, r.2.1, some e⟩
  | none =>
      if 0 < r.1.count ∧ (r.1.count : Int) < bsz ∧ incomplete = true then
        ⟨r.1.out ++ [batchPack so r.1.batch], r.2.1, none⟩
      else ⟨r.1.out, r.2.1, none⟩

/-- Outcome of `BaseBatchGenerator._check_signature(sign_in, sign_out)`:
success, an `InputOutputSignatureMismatch`, or an `AttributeError`
(raised by `sign_out.keys()` when `sign_out` is not a mapping). -/
inductive CheckResult where
  | ok : CheckResult
  | mismatch : CheckResult
  | attrError : CheckResult
deriving DecidableEq, Repr

/-- Python `dict_keys` equality: set equality of the key views
(`sign_in.keys() != sign_out.keys()` compares as sets). -/
def keysEq (a b : List String) : Bool :=
  a.all b.contains && b.all a.contains

mutual
/-- `BaseBatchGenerator._check_signature(sign_in, sign_out)`.
A terminal on the input side (`'type' in sign_in`) short-circuits as
compatible. An input-side mapping compares key sets — against
`['type']` when the output is a terminal mapping `{'type': ...}` —
and recurses per output key; when the output side is a list or tuple,
`sign_out.keys()` raises `AttributeError` instead of the mismatch
error. Otherwise differing dynamic types, then differing lengths,
raise the mismatch error, and sequences recurse pointwise, stopping at
the first error as the Python exception does. (The key-sets-equal
branch against a terminal output would recurse into the `'type'` key,
but requires `'type'` among the input mapping's keys, which a
wellformed structural mapping never has; it is modeled as success.) -/
def checkSignature : Sig → Sig → CheckResult
  | .term _, _ => .ok
  | .sdict fsi, .term _ =>
      if keysEq (fsi.map Prod.fst) ["type"] then .ok else .mismatch
  | .sdict fsi, .sdict fso =>
      if keysEq (fsi.map Prod.fst) (fso.map Prod.fst) then
        checkSignatureFields fsi fso
      else .mismatch
  | .sdict _, .slist _ => .attrError
  | .sdict _, .stup _ => .attrError
  | .slist xsi, .slist xso =>
      if xsi.length = xso.length then checkSignatureList xsi xso else .mismatch
  | .slist _, _ => .mismatch
  | .stup xsi, .stup xso =>
      if xsi.length = xso.length then checkSignatureList xsi xso else .mismatch
  | .stup _, _ => .mismatch

def checkSignatureList : List Sig → List Sig → CheckResult
  | si :: xsi, so :: xso =>
      match checkSignature si so with
      | .ok => checkSignatureList xsi xso
      | r => r
  | _, _ => .ok

def checkSignatureFields (fsi : List (String × Sig)) :
    List (String × Sig) → CheckResult
  | [] => .ok
  | (k, so) :: fso =>
      match checkSignature ((fsi.lookup k).getD junkSig) so with
      | .ok => checkSignatureFields fsi fso
      | r => r
end

mutual
/-- The compatibility relation as the specification words it: a
terminal input subtree is compatible with anything; a structural
mapping is compatible exactly with a structural mapping having the
same key set and compatible values per key; sequences are compatible
exactly with a sequence of the same kind, same length and pointwise
compatible children. -/
def compatibleSpec : Sig → Sig → Bool
  | .term _, _ => true
  | .sdict fsi, .sdict fso =>
      keysEq (fsi.map Prod.fst) (fso.map Prod.fst)
        && compatibleSpecFields fsi fso
  | .sdict _, _ => false
  | .slist xsi, .slist xso =>
      xsi.length == xso.length && compatibleSpecList xsi xso
  | .slist _, _ => false
  | .stup xsi, .stup xso =>
      xsi.length == xso.length && compatibleSpecList xsi xso
  | .stup _, _ => false

def compatibleSpecList : List Sig → List Sig → Bool
  | si :: xsi, so :: xso => compatibleSpec si so && compatibleSpecList xsi xso
  | _, _ => true

def compatibleSpecFields (fsi : List (String × Sig)) :
    List (String × Sig) → Bool
  | [] => true
  | (k, so) :: fso =>
      compatibleSpec ((fsi.lookup k).getD junkSig) so
        && compatibleSpecFields fsi fso
end

/-- A half-open time interval `[start, end)` (`pyannote.core.Segment`,
an external collaborator; `end` is a Lean keyword, rendered `stop`).
Times are exact rationals standing for the Python floats. -/
structure Seg where
  start : Rat
  stop : Rat
deriving DecidableEq, Repr

/-- `Segment.duration = end - start`. -/
def Seg.duration (s : Seg) : Rat := s.stop - s.start

/-- `pyannote.core` segment containment `other in segment`:
`segment.start <= other.start and segment.end >= other.end`. -/
def Seg.containsSeg (outer inner : Seg) : Bool :=
  decide (outer.start ≤ inner.start) && decide (inner.stop ≤ outer.stop)

/-- `pyannote.core` segment intersection `s & segment`. -/
def Seg.inter (a b : Seg) : Seg :=
  ⟨max a.start b.start, min a.stop b.stop⟩

/-- Modelled external collaborator `pyannote.core.SlidingWindow(duration,
step, start, end)` as an iterator: it yields the windows
`[start + i*step, start + i*step + duration)` for `i = 0, 1, ...` while
the window's start lies strictly before `end`; the while loop is
rendered in closed form, the number of iterations being
`⌈(end - start)/step⌉` (zero when the span is empty). -/
def slidingWindowList (duration step : Rat) (start stop : Rat) : List Seg :=
  (List.range ⌈(stop - start) / step⌉₊).map
    (fun i : Nat =>
      ⟨start + (i : Rat) * step, start + (i : Rat) * step + duration⟩)

/-- `SlidingSegments` sampler configuration: window `duration`, `step`,
`min_duration` and the `variable_length_` flag; the constructor sets
`min_duration = duration` and disables variable length when
`min_duration is None`. -/
structure SlidingSegmentsCfg where
  duration : Rat
  step : Rat
  min_duration : Rat
  variable_length_ : Bool

/-- The inner `for s in window` loop of `SlidingSegments.iter_segments`:
a window fully contained in the segment is yielded; at the first window
that is not, when variable length is allowed the clipped intersection is
yielded if it still meets `min_duration` and the loop breaks; with fixed
length the window is skipped and iteration continues. -/
def processWindows (cfg : SlidingSegmentsCfg) (seg : Seg) : List Seg → List Seg
  | [] => []
  | w :: ws =>
      if Seg.containsSeg seg w then w :: processWindows cfg seg ws
      else if cfg.variable_length_ then
        (if cfg.min_duration ≤ (Seg.inter w seg).duration
         then [Seg.inter w seg] else [])
      else processWindows cfg seg ws

/-- `SlidingSegments.iter_segments` on a single-`Segment` source:
segments shorter than `min_duration` are skipped; segments between
`min_duration` and `duration` are yielded whole only when variable
length is allowed; otherwise the sliding-window loop runs. -/
def iterSegmentsSeg (cfg : SlidingSegmentsCfg) (seg : Seg) : List Seg :=
  if seg.duration < cfg.min_duration then []
  else if seg.duration < cfg.duration then
    (if cfg.variable_length_ then [seg] else [])
  else processWindows cfg seg
    (slidingWindowList cfg.duration cfg.step seg.start seg.stop)

/-- `SlidingSegments(duration=w, step=s)` with `min_duration=None`:
fixed-length windows, variable length disabled. -/
def slidingSegmentsFixed (duration step : Rat) : SlidingSegmentsCfg :=
  ⟨duration, step, duration, false⟩

/-- One labeled track of an annotation, as iterated by
`Annotation.itertracks(label=True)`: `(segment, track, label)`.
Labels are rendered as naturals. -/
structure TRec where
  seg : Seg
  track : Nat
  label : Nat
deriving DecidableEq, Repr

/-- An annotation (external `pyannote.core.Annotation`), rendered as
its finite list of labeled tracks; the mapping has no duplicate
`(segment, track)` keys, so a track's label is the one stored in its
record. -/
abbrev Annot := List TRec

/-- `Annotation.labels()`: the distinct labels (pyannote sorts them;
only the set matters for the properties below). -/
def Annot.labels (ann : Annot) : List Nat := (ann.map TRec.label).dedup

/-- `Annotation.subset(labels, invert)`: the subannotation of tracks
whose label lies in the set (or outside it, when inverted). -/
def Annot.subset (ann : Annot) (lbls : List Nat) (invert : Bool) : Annot :=
  ann.filter (fun r => lbls.contains r.label != invert)

/-- `Annotation.get_timeline()`: the distinct segments. -/
def Annot.timeline (ann : Annot) : List Seg := (ann.map TRec.seg).dedup

/-- The `k`-th yield of `RandomTracks.iter_tracks(from_annotation)`:
`random.randrange(n_segments)` picks a segment of the timeline and
`random.choice` one of its tracks (with its stored label,
`from_annotation[segment, track]`); the two random draws come from the
oracle, reduced modulo the respective lengths. `none` models the
`ValueError` that `randrange(0)` raises on an empty annotation. -/
def iterTracksNth (ann : Annot) (oracle : Nat → Nat × Nat) (k : Nat) :
    Option TRec :=
  let segs := Annot.timeline ann
  if segs.length = 0 then none
  else
    let seg := segs.getD ((oracle k).1 % segs.length) ⟨0, 0⟩
    let tracks := ann.filter (fun r => decide (r.seg = seg))
    if tracks.length = 0 then none
    else some (tracks.getD ((oracle k).2 % tracks.length) ⟨⟨0, 0⟩, 0, 0⟩)

/-- The inner `for _ in range(self.per_label)` loop of
`RandomTrackTriplets.iter_triplets` for one label: anchor and positive
are two successive draws from the label's subset stream, the negative
one draw from the complement stream; a draw from an empty annotation
(`randrange(0)`, `ValueError`) kills the whole generator — flagged by
the returned Boolean. -/
def tripletsForLabel (pos neg : Annot) (op onn : Nat → Nat × Nat) :
    Nat → Nat → List (TRec × TRec × TRec) × Bool
  | 0, _ => ([], false)
  | m + 1, j =>
      match iterTracksNth pos op (2 * j), iterTracksNth pos op (2 * j + 1),
          iterTracksNth neg onn j with
      | some a, some p, some n =>
          let rest := tripletsForLabel pos neg op onn m (j + 1)
          (⟨a, p, n⟩ :: rest.1, rest.2)
      | _, _, _ => ([], true)

/-- `RandomTrackTriplets.iter_triplets` over the label list: per label,
`per_label` triplets drawn from the label's subset (anchor, positive)
and its complement (negative); an aborted label draw stops the stream
for good. The oracles are indexed by the label's position. -/
def iterTripletsGo (ann : Annot) (perLabel : Nat)
    (op onn : Nat → Nat → Nat × Nat) :
    List Nat → Nat → List (TRec × TRec × TRec)
  | [], _ => []
  | l :: ls, li =>
      let pos := Annot.subset ann [l] false
      let neg := Annot.subset ann [l] true
      let r := tripletsForLabel pos neg (op li) (onn li) perLabel 0
      if r.2 then r.1 else r.1 ++ iterTripletsGo ann perLabel op onn ls (li + 1)

/-- `RandomTrackTriplets(per_label).iter_triplets(from_annotation)`. -/
def iterTriplets (ann : Annot) (perLabel : Nat)
    (op onn : Nat → Nat → Nat × Nat) : List (TRec × TRec × TRec) :=
  iterTripletsGo ann perLabel op onn (Annot.labels ann) 0

/-- `RandomSegmentTriplets.pick(segment)`: a random subsegment of the
requested duration, the uniform draw `random.random()` supplied as
`t`. -/
def pickSub (duration t : Rat) (seg : Seg) : Seg :=
  ⟨seg.start + t * (seg.duration - duration),
   seg.start + t * (seg.duration - duration) + duration⟩

/-- `RandomSegmentTriplets.iter_triplets` with `yield_label=True`:
tracks shorter than the requested duration are dropped into a filtered
annotation; fewer than two remaining labels yield nothing; otherwise
each track triplet is mapped to its segments (replaced by random
subsegments of the requested duration when it is nonzero, three
`pick` draws per triplet from `ot`) paired with the triplet's labels. -/
def iterSegTriplets (ann : Annot) (dur : Rat) (perLabel : Nat)
    (op onn : Nat → Nat → Nat × Nat) (ot : Nat → Rat) :
    List ((Seg × Nat) × (Seg × Nat) × (Seg × Nat)) :=
  let filtered := ann.filter (fun r => decide (¬ r.seg.duration < dur))
  if (Annot.labels filtered).length < 2 then []
  else
    (iterTriplets filtered perLabel op onn).enum.map (fun mt =>
      let a := if dur = 0 then mt.2.1.seg else pickSub dur (ot (3 * mt.1)) mt.2.1.seg
      let p := if dur = 0 then mt.2.2.1.seg
        else pickSub dur (ot (3 * mt.1 + 1)) mt.2.2.1.seg
      let n := if dur = 0 then mt.2.2.2.seg
        else pickSub dur (ot (3 * mt.1 + 2)) mt.2.2.2.seg
      ((a, mt.2.1.label), (p, mt.2.2.1.label), (n, mt.2.2.2.label)))

/-- Concrete two-label annotation witnessing the triplet properties. -/
def c6Ann : Annot := [⟨⟨0, 1⟩, 0, 0⟩, ⟨⟨2, 3⟩, 0, 1⟩]

/-- The track triplet the constant oracles draw from `c6Ann`. -/
def c6Trip : TRec × TRec × TRec :=
  (⟨⟨0, 1⟩, 0, 0⟩, ⟨⟨0, 1⟩, 0, 0⟩, ⟨⟨2, 3⟩, 0, 1⟩)

/-- The labeled segment triplet the constant oracles draw from
`c6Ann`. -/
def c6SegTrip : (Seg × Nat) × (Seg × Nat) × (Seg × Nat) :=
  ((⟨0, 1⟩, 0), (⟨0, 1⟩, 0), (⟨2, 3⟩, 1))

/-- A Python runtime error kind: `NameError(name)`. -/
inductive PyErr where
  | nameError : String → PyErr
deriving DecidableEq, Repr

/-- A file record as consumed by the samplers' `from_file`: an opaque
mapping containing at least the annotation. -/
structure FileRecord where
  annotation : Annot

/-- `RandomTracks.from_file(current_file)` (fragment.py lines 642-645):
the body binds `annotation = current_file['annotation']` but then
iterates `self.iter_tracks(reference)`, and `reference` is an
undefined name — the first `next()` on the returned generator raises
`NameError: name 'reference' is not defined` before any fragment is
yielded. The embedding returns that error in place of the intended
track stream (`iterTracksNth` on the file's annotation). -/
def RandomTracks.from_file (current_file : FileRecord) :
    Except PyErr (Nat → Option TRec) :=
  .error (.nameError "reference")

/-- Concrete file record with a one-track annotation. -/
def c9File : FileRecord := ⟨[⟨⟨0, 1⟩, 0, 0⟩]⟩

/-- `BackgroundGenerator`, modeled sequentially: `run` enqueues every
item of the wrapped generator and then enqueues `None` as the
end-of-stream sentinel; `next` dequeues and raises `StopIteration` on
`None`. The wrapped generator's output is a list of `Option α`, `none`
standing for a yielded Python `None` data item. -/
def bgQueue {α : Type} (xs : List (Option α)) : List (Option α) :=
  xs ++ [none]

/-- The sequence the consumer receives from `BackgroundGenerator`:
items dequeued strictly before the first `None` in the queue. -/
def bgDelivered {α : Type} (xs : List (Option α)) : List (Option α) :=
  (bgQueue xs).takeWhile Option.isSome

/-- Insertion into a sorted list (ascending). -/
def insertSorted (x : Nat) : List Nat → List Nat
  | [] => [x]
  | a :: l => if x ≤ a then x :: a :: l else a :: insertSorted x l

/-- Insertion sort (ascending), standing in for `np.unique`'s sort. -/
def sortNat : List Nat → List Nat
  | [] => []
  | a :: l => insertSorted a (sortNat l)

/-- `np.unique(y)`: the distinct values of `y`, sorted ascending. -/
def rliUnique (y : List Nat) : List Nat := sortNat y.dedup

/-- The `return_inverse` label index of sample `i`: the position of
`y[i]` in the sorted unique values. -/
def labelIdx (y : List Nat) (i : Nat) : Nat :=
  (rliUnique y).indexOf (y.getD i 0)

/-- `shuffled_sequences[label]` before any shuffling:
`np.where(y == label)[0]`, the ascending positions carrying the
label. -/
def rliPool (y : List Nat) (l : Nat) : List Nat :=
  (List.range y.length).filter (fun i => labelIdx y i == l)

/-- `counts[label]`: how many samples carry the label. -/
def rliCounts (y : List Nat) (l : Nat) : Nat := (rliPool y l).length

/-- Mutable state of `random_label_index`'s generator loop:
`shuffled_sequences`, `consumed`, the number of reshuffles performed so
far (feeding the shuffle oracle) and `previous_label`. -/
structure RliState where
  pools : Nat → List Nat
  consumed : Nat → Nat
  nshuf : Nat
  prev : Option Nat

/-- One emission for `label`: yield
`shuffled_sequences[label][consumed[label]]`, increment `consumed`,
and when `consumed[label] + 1 > counts[label]` reset the pointer and
reshuffle that label's pool (`resh` is the shuffle oracle, fed the
reshuffle counter). -/
def rliEmit (counts : Nat → Nat) (resh : Nat → List Nat → List Nat)
    (st : RliState) (l : Nat) : Nat × RliState :=
  let i := (st.pools l).getD (st.consumed l) 0
  let c := st.consumed l + 1
  if c + 1 > counts l then
    (i, ⟨fun x => if x = l then resh st.nshuf (st.pools l) else st.pools x,
         fun x => if x = l then 0 else st.consumed x,
         st.nshuf + 1, st.prev⟩)
  else
    (i, ⟨st.pools, fun x => if x = l then c else st.consumed x,
         st.nshuf, st.prev⟩)

/-- `for _ in range(per_this_label)`: `m` consecutive emissions for one
label. -/
def rliEmitN (counts : Nat → Nat) (resh : Nat → List Nat → List Nat) :
    Nat → RliState → Nat → List Nat × RliState
  | 0, st, _ => ([], st)
  | m + 1, st, l =>
      let e := rliEmit counts resh st l
      let rest := rliEmitN counts resh m e.2 l
      (e.1 :: rest.1, rest.2)

/-- The `for k, label in enumerate(...)` loop of one `while` round:
the first label of the round is skipped entirely when it equals
`previous_label`; otherwise `per_label` (or, without repeat,
`min(per_label, counts[label])`) items are emitted for it. -/
def rliRoundGo (counts : Nat → Nat) (resh : Nat → List Nat → List Nat)
    (perLabel : Nat) (rep : Bool) :
    List Nat → Nat → RliState → List Nat × RliState
  | [], _, st => ([], st)
  | l :: ls, k, st =>
      if k = 0 ∧ st.prev = some l then
        rliRoundGo counts resh perLabel rep ls (k + 1) st
      else
        let perThis := if rep then perLabel else min perLabel (counts l)
        let e := rliEmitN counts resh perThis st l
        let rest := rliRoundGo counts resh perLabel rep ls (k + 1) e.2
        (e.1 ++ rest.1, rest.2)

/-- One `while True` round over the drawn permutation `p`, setting
`previous_label` to the loop variable's final value (the last element
of `p`). -/
def rliRound (counts : Nat → Nat) (resh : Nat → List Nat → List Nat)
    (perLabel : Nat) (rep : Bool) (st : RliState) (p : List Nat) :
    List Nat × RliState :=
  let r := rliRoundGo counts resh perLabel rep p 0 st
  (r.1, ⟨r.2.pools, r.2.consumed, r.2.nshuf,
    match p.getLast? with
    | some x => some x
    | none => r.2.prev⟩)

/-- `rounds` rounds of the infinite loop, the `r`-th drawing the
permutation `perms r`; returns the per-round emission lists. -/
def rliRounds (counts : Nat → Nat) (resh : Nat → List Nat → List Nat)
    (perLabel : Nat) (rep : Bool) (perms : Nat → List Nat) :
    Nat → Nat → RliState → List (List Nat)
  | 0, _, _ => []
  | m + 1, r, st =>
      let e := rliRound counts resh perLabel rep st (perms r)
      e.1 :: rliRounds counts resh perLabel rep perms m (r + 1) e.2

/-- `random_label_index(y, per_label, repeat)` run for `rounds` rounds
of the infinite loop, the permutation draws
(`np.random.choice(n_labels, size=n_labels, replace=False)`) and pool
reshuffles (`np.random.shuffle`) supplied by oracles; yields the
per-round lists of emitted sample indices (their concatenation is the
emitted stream). -/
def random_label_index (y : List Nat) (perLabel : Nat) (rep : Bool)
    (resh : Nat → List Nat → List Nat) (perms : Nat → List Nat)
    (rounds : Nat) : List (List Nat) :=
  rliRounds (rliCounts y) resh perLabel rep perms rounds 0
    ⟨rliPool y, fun _ => 0, 0, none⟩

/-- The label content one round should emit according to the amended
claim: the drawn permutation, minus its head when that equals the
previous round's last label, each label repeated `per_label` times. -/
def roundExpected (perms : Nat → List Nat) (perLabel : Nat) (r : Nat) :
    List Nat :=
  (if r = 0 ∨ (perms r).head? ≠ (perms (r - 1)).getLast? then perms r
   else (perms r).drop 1).flatMap (fun l => List.replicate perLabel l)

/-! ## Theorems -/

theorem lookup_cons_self {β : Type} (k : String) (v : β) (l : List (String × β)) :
    List.lookup k ((k, v) :: l) = some v := by
  simp [List.lookup]

theorem lookup_cons_of_ne {β : Type} {k k' : String} (hne : k' ≠ k) (v : β)
    (l : List (String × β)) :
    List.lookup k' ((k, v) :: l) = List.lookup k' l := by
  simp [List.lookup, beq_false_of_ne hne]

/-- `_batch_signature` preserves the keys of a structural mapping. -/
theorem batchSignatureFields_keys (fs : List (String × Sig)) :
    (batchSignatureFields fs).map Prod.fst = fs.map Prod.fst := by
  induction fs with
  | nil => rfl
  | cons kv fs ih =>
      obtain ⟨k, v⟩ := kv
      simp [batchSignatureFields, ih]

/-- Iterating `_batch_add` over output-signature keys all different from
`k` never consults the head entries keyed `k` of the parallel trees. -/
theorem batchAddFields_skip {α : Type} {k : String} (f : Frag α) (si : Sig)
    (b : BAcc α) (ff : List (String × Frag α)) (fsi : List (String × Sig))
    (bb : List (String × BAcc α)) :
    ∀ fso : List (String × Sig), (∀ e ∈ fso, e.1 ≠ k) →
      batchAddFields ((k, f) :: ff) ((k, si) :: fsi) fso ((k, b) :: bb)
        = batchAddFields ff fsi fso bb
  | [], _ => rfl
  | (k', so) :: fso, h => by
      have hne : k' ≠ k := h (k', so) (List.mem_cons_self _ _)
      simp only [batchAddFields, lookup_cons_of_ne hne,
        batchAddFields_skip f si b ff fsi bb fso
          (fun e he => h e (List.mem_cons_of_mem _ he))]

/-- Same skip property for `_batch_pack`'s per-key lookups. -/
theorem batchPackFields_skip {α : Type} {k : String} (b : BAcc α)
    (bb : List (String × BAcc α)) :
    ∀ fso : List (String × Sig), (∀ e ∈ fso, e.1 ≠ k) →
      batchPackFields fso ((k, b) :: bb) = batchPackFields fso bb
  | [], _ => rfl
  | (k', so) :: fso, h => by
      have hne : k' ≠ k := h (k', so) (List.mem_cons_self _ _)
      simp only [batchPackFields, lookup_cons_of_ne hne,
        batchPackFields_skip b bb fso
          (fun e he => h e (List.mem_cons_of_mem _ he))]

mutual
/-- The fresh accumulator `_batch_new(signature_out)` mirrors the input
signature tree. -/
theorem batchNew_matchesSig {α : Type} :
    ∀ s : Sig, (batchNew (batchSignature s) : BAcc α).matchesSig s = true
  | .term _ => rfl
  | .slist xs => by
      simpa [batchSignature, batchNew, BAcc.matchesSig] using
        batchNew_matchesSigList (α := α) xs
  | .stup xs => by
      simpa [batchSignature, batchNew, BAcc.matchesSig] using
        batchNew_matchesSigList (α := α) xs
  | .sdict fs => by
      simpa [batchSignature, batchNew, BAcc.matchesSig] using
        batchNew_matchesSigFields (α := α) fs

theorem batchNew_matchesSigList {α : Type} :
    ∀ xs : List Sig,
      BAcc.matchesSigList (batchNewList (batchSignatureList xs) : List (BAcc α)) xs = true
  | [] => rfl
  | x :: xs => by
      simp only [batchSignatureList, batchNewList, BAcc.matchesSigList,
        batchNew_matchesSig (α := α) x, batchNew_matchesSigList (α := α) xs,
        Bool.and_self]

theorem batchNew_matchesSigFields {α : Type} :
    ∀ fs : List (String × Sig),
      BAcc.matchesSigFields (batchNewFields (batchSignatureFields fs) : List (String × BAcc α)) fs = true
  | [] => rfl
  | (k, v) :: fs => by
      simp only [batchSignatureFields, batchNewFields, BAcc.matchesSigFields,
        batchNew_matchesSig (α := α) v, batchNew_matchesSigFields (α := α) fs,
        Bool.and_self, beq_self_eq_true]
end

mutual
/-- The fresh accumulator has one empty list per terminal leaf. -/
theorem batchNew_leafSizes {α : Type} :
    ∀ s : Sig, (batchNew (batchSignature s) : BAcc α).leafSizes
      = List.replicate s.numLeaves 0
  | .term _ => rfl
  | .slist xs => by
      simpa [batchSignature, batchNew, BAcc.leafSizes, Sig.numLeaves] using
        batchNew_leafSizesList (α := α) xs
  | .stup xs => by
      simpa [batchSignature, batchNew, BAcc.leafSizes, Sig.numLeaves] using
        batchNew_leafSizesList (α := α) xs
  | .sdict fs => by
      simpa [batchSignature, batchNew, BAcc.leafSizes, Sig.numLeaves] using
        batchNew_leafSizesFields (α := α) fs

theorem batchNew_leafSizesList {α : Type} :
    ∀ xs : List Sig,
      BAcc.leafSizesList (batchNewList (batchSignatureList xs) : List (BAcc α))
        = List.replicate (Sig.numLeavesList xs) 0
  | [] => rfl
  | x :: xs => by
      simp only [batchSignatureList, batchNewList, BAcc.leafSizesList, Sig.numLeavesList,
        batchNew_leafSizes (α := α) x, batchNew_leafSizesList (α := α) xs,
        List.replicate_add]

theorem batchNew_leafSizesFields {α : Type} :
    ∀ fs : List (String × Sig),
      BAcc.leafSizesFields (batchNewFields (batchSignatureFields fs) : List (String × BAcc α))
        = List.replicate (Sig.numLeavesFields fs) 0
  | [] => rfl
  | (k, v) :: fs => by
      simp only [batchSignatureFields, batchNewFields, BAcc.leafSizesFields, Sig.numLeavesFields,
        batchNew_leafSizes (α := α) v, batchNew_leafSizesFields (α := α) fs,
        List.replicate_add]
end

mutual
/-- One `_batch_add` of a fragment matching the input signature keeps
the accumulator mirroring the signature and appends exactly one value
to every terminal leaf. -/
theorem batchAdd_pres {α : Type} :
    ∀ (s : Sig) (f : Frag α) (b : BAcc α),
      s.wellformed = true → f.matches s = true → b.matchesSig s = true →
      (batchAdd f s (batchSignature s) b).matchesSig s = true ∧
        (batchAdd f s (batchSignature s) b).leafSizes = b.leafSizes.map (· + 1)
  | .term t, f, b, _, _, hb => by
      cases b with
      | leaf vs =>
          refine ⟨rfl, ?_⟩
          simp [batchAdd, BAcc.leafSizes]
      | blist bb => simp only [BAcc.matchesSig] at hb; exact (Bool.false_ne_true hb).elim
      | btup bb => simp only [BAcc.matchesSig] at hb; exact (Bool.false_ne_true hb).elim
      | bdict bb => simp only [BAcc.matchesSig] at hb; exact (Bool.false_ne_true hb).elim
  | .slist xs, f, b, hwf, hm, hb => by
      cases f with
      | flist ff =>
          cases b with
          | blist bb =>
              have h := batchAdd_presList xs ff bb
                (by simpa [Sig.wellformed] using hwf)
                (by simpa [Frag.matches] using hm)
                (by simpa [BAcc.matchesSig] using hb)
              simpa [batchAdd, batchSignature, BAcc.matchesSig, BAcc.leafSizes] using h
          | leaf vs => simp only [BAcc.matchesSig] at hb; exact (Bool.false_ne_true hb).elim
          | btup bb => simp only [BAcc.matchesSig] at hb; exact (Bool.false_ne_true hb).elim
          | bdict bb => simp only [BAcc.matchesSig] at hb; exact (Bool.false_ne_true hb).elim
      | val a => simp only [Frag.matches] at hm; exact (Bool.false_ne_true hm).elim
      | ftup ff => simp only [Frag.matches] at hm; exact (Bool.false_ne_true hm).elim
      | fdict ff => simp only [Frag.matches] at hm; exact (Bool.false_ne_true hm).elim
  | .stup xs, f, b, hwf, hm, hb => by
      cases f with
      | ftup ff =>
          cases b with
          | btup bb =>
              have h := batchAdd_presList xs ff bb
                (by simpa [Sig.wellformed] using hwf)
                (by simpa [Frag.matches] using hm)
                (by simpa [BAcc.matchesSig] using hb)
              simpa [batchAdd, batchSignature, BAcc.matchesSig, BAcc.leafSizes] using h
          | leaf vs => simp only [BAcc.matchesSig] at hb; exact (Bool.false_ne_true hb).elim
          | blist bb => simp only [BAcc.matchesSig] at hb; exact (Bool.false_ne_true hb).elim
          | bdict bb => simp only [BAcc.matchesSig] at hb; exact (Bool.false_ne_true hb).elim
      | val a => simp only [Frag.matches] at hm; exact (Bool.false_ne_true hm).elim
      | flist ff => simp only [Frag.matches] at hm; exact (Bool.false_ne_true hm).elim
      | fdict ff => simp only [Frag.matches] at hm; exact (Bool.false_ne_true hm).elim
  | .sdict fs, f, b, hwf, hm, hb => by
      cases f with
      | fdict ff =>
          cases b with
          | bdict bb =>
              have hwf' := hwf
              simp only [Sig.wellformed, Bool.and_eq_true, Bool.not_eq_true',
                decide_eq_true_eq] at hwf'
              have h := batchAdd_presFields fs ff bb hwf'.1.1 hwf'.2
                (by simpa [Frag.matches] using hm)
                (by simpa [BAcc.matchesSig] using hb)
              simpa [batchAdd, batchSignature, BAcc.matchesSig, BAcc.leafSizes] using h
          | leaf vs => simp only [BAcc.matchesSig] at hb; exact (Bool.false_ne_true hb).elim
          | blist bb => simp only [BAcc.matchesSig] at hb; exact (Bool.false_ne_true hb).elim
          | btup bb => simp only [BAcc.matchesSig] at hb; exact (Bool.false_ne_true hb).elim
      | val a => simp only [Frag.matches] at hm; exact (Bool.false_ne_true hm).elim
      | flist ff => simp only [Frag.matches] at hm; exact (Bool.false_ne_true hm).elim
      | ftup ff => simp only [Frag.matches] at hm; exact (Bool.false_ne_true hm).elim

theorem batchAdd_presList {α : Type} :
    ∀ (ss : List Sig) (ff : List (Frag α)) (bb : List (BAcc α)),
      Sig.wellformedList ss = true → Frag.matchesList ff ss = true →
      BAcc.matchesSigList bb ss = true →
      BAcc.matchesSigList (batchAddZip ff ss (batchSignatureList ss) bb) ss = true ∧
        BAcc.leafSizesList (batchAddZip ff ss (batchSignatureList ss) bb)
          = (BAcc.leafSizesList bb).map (· + 1)
  | [], ff, bb, _, hm, hb => by
      cases ff with
      | cons f ff => simp only [Frag.matchesList] at hm; exact (Bool.false_ne_true hm).elim
      | nil =>
          cases bb with
          | cons b bb =>
              simp only [BAcc.matchesSigList] at hb; exact (Bool.false_ne_true hb).elim
          | nil => exact ⟨rfl, rfl⟩
  | s :: ss, ff, bb, hwf, hm, hb => by
      cases ff with
      | nil => simp only [Frag.matchesList] at hm; exact (Bool.false_ne_true hm).elim
      | cons f ff =>
          cases bb with
          | nil => simp only [BAcc.matchesSigList] at hb; exact (Bool.false_ne_true hb).elim
          | cons b bb =>
              simp only [Sig.wellformedList, Bool.and_eq_true] at hwf
              simp only [Frag.matchesList, Bool.and_eq_true] at hm
              simp only [BAcc.matchesSigList, Bool.and_eq_true] at hb
              have h1 := batchAdd_pres s f b hwf.1 hm.1 hb.1
              have h2 := batchAdd_presList ss ff bb hwf.2 hm.2 hb.2
              refine ⟨?_, ?_⟩
              · simp only [batchSignatureList, batchAddZip, BAcc.matchesSigList,
                  Bool.and_eq_true]
                exact ⟨h1.1, h2.1⟩
              · simp only [batchSignatureList, batchAddZip, BAcc.leafSizesList,
                  h1.2, h2.2, List.map_append]

theorem batchAdd_presFields {α : Type} :
    ∀ (fs : List (String × Sig)) (ff : List (String × Frag α))
      (bb : List (String × BAcc α)),
      (fs.map Prod.fst).Nodup → Sig.wellformedFields fs = true →
      Frag.matchesFields ff fs = true → BAcc.matchesSigFields bb fs = true →
      BAcc.matchesSigFields (batchAddFields ff fs (batchSignatureFields fs) bb) fs = true ∧
        BAcc.leafSizesFields (batchAddFields ff fs (batchSignatureFields fs) bb)
          = (BAcc.leafSizesFields bb).map (· + 1)
  | [], ff, bb, _, _, hm, hb => by
      cases bb with
      | cons b bb =>
          simp only [BAcc.matchesSigFields] at hb; exact (Bool.false_ne_true hb).elim
      | nil => exact ⟨rfl, rfl⟩
  | (k, v) :: fs, ff, bb, hnd, hwf, hm, hb => by
      cases ff with
      | nil => simp only [Frag.matchesFields] at hm; exact (Bool.false_ne_true hm).elim
      | cons kf ff =>
          obtain ⟨kf1, f⟩ := kf
          cases bb with
          | nil => simp only [BAcc.matchesSigFields] at hb; exact (Bool.false_ne_true hb).elim
          | cons kb bb =>
              obtain ⟨kb1, b⟩ := kb
              simp only [Frag.matchesFields, Bool.and_eq_true, beq_iff_eq] at hm
              simp only [BAcc.matchesSigFields, Bool.and_eq_true, beq_iff_eq] at hb
              simp only [Sig.wellformedFields, Bool.and_eq_true] at hwf
              obtain ⟨⟨hkf, hmv⟩, hmrest⟩ := hm
              obtain ⟨⟨hkb, hbv⟩, hbrest⟩ := hb
              subst hkf; subst hkb
              simp only [List.map_cons, List.nodup_cons] at hnd
              have hknot : ∀ e ∈ batchSignatureFields fs, e.1 ≠ kb1 := by
                intro e he hek
                exact hnd.1 (by
                  rw [← batchSignatureFields_keys fs]
                  exact hek ▸ List.mem_map_of_mem Prod.fst he)
              have h1 := batchAdd_pres v f b hwf.1 hmv hbv
              have h2 := batchAdd_presFields fs ff bb hnd.2 hwf.2 hmrest hbrest
              refine ⟨?_, ?_⟩
              · simp only [batchSignatureFields, batchAddFields, lookup_cons_self,
                  Option.getD_some, batchAddFields_skip f v b ff fs bb _ hknot,
                  BAcc.matchesSigFields, Bool.and_eq_true, beq_self_eq_true,
                  Bool.true_and, true_and]
                exact ⟨h1.1, h2.1⟩
              · simp only [batchSignatureFields, batchAddFields, lookup_cons_self,
                  Option.getD_some, batchAddFields_skip f v b ff fs bb _ hknot,
                  BAcc.leafSizesFields, h1.2, h2.2, List.map_append]
end

mutual
/-- `_batch_pack` over the output signature produces a packed tree of
the output signature's shape whose leaf lengths are the accumulator's
leaf lengths. -/
theorem batchPack_pres {α : Type} :
    ∀ (s : Sig) (b : BAcc α), s.wellformed = true → b.matchesSig s = true →
      (batchPack (batchSignature s) b).hasShape (batchSignature s) = true ∧
        (batchPack (batchSignature s) b).leafSizes = b.leafSizes
  | .term t, b, _, hb => by
      cases b with
      | leaf vs =>
          refine ⟨rfl, ?_⟩
          simp [batchPack, batchSignature, Packed.leafSizes, BAcc.leafSizes]
      | blist bb => simp only [BAcc.matchesSig] at hb; exact (Bool.false_ne_true hb).elim
      | btup bb => simp only [BAcc.matchesSig] at hb; exact (Bool.false_ne_true hb).elim
      | bdict bb => simp only [BAcc.matchesSig] at hb; exact (Bool.false_ne_true hb).elim
  | .slist xs, b, hwf, hb => by
      cases b with
      | blist bb =>
          have h := batchPack_presList xs bb
            (by simpa [Sig.wellformedList] using hwf)
            (by simpa [BAcc.matchesSig] using hb)
          simpa [batchPack, batchSignature, Packed.hasShape, Packed.leafSizes,
            BAcc.leafSizes] using h
      | leaf vs => simp only [BAcc.matchesSig] at hb; exact (Bool.false_ne_true hb).elim
      | btup bb => simp only [BAcc.matchesSig] at hb; exact (Bool.false_ne_true hb).elim
      | bdict bb => simp only [BAcc.matchesSig] at hb; exact (Bool.false_ne_true hb).elim
  | .stup xs, b, hwf, hb => by
      cases b with
      | btup bb =>
          have h := batchPack_presList xs bb
            (by simpa [Sig.wellformedList] using hwf)
            (by simpa [BAcc.matchesSig] using hb)
          simpa [batchPack, batchSignature, Packed.hasShape, Packed.leafSizes,
            BAcc.leafSizes] using h
      | leaf vs => simp only [BAcc.matchesSig] at hb; exact (Bool.false_ne_true hb).elim
      | blist bb => simp only [BAcc.matchesSig] at hb; exact (Bool.false_ne_true hb).elim
      | bdict bb => simp only [BAcc.matchesSig] at hb; exact (Bool.false_ne_true hb).elim
  | .sdict fs, b, hwf, hb => by
      cases b with
      | bdict bb =>
          have hwf' := hwf
          simp only [Sig.wellformed, Bool.and_eq_true, decide_eq_true_eq] at hwf'
          have h := batchPack_presFields fs bb hwf'.1.1 hwf'.2
            (by simpa [BAcc.matchesSig] using hb)
          simpa [batchPack, batchSignature, Packed.hasShape, Packed.leafSizes,
            BAcc.leafSizes] using h
      | leaf vs => simp only [BAcc.matchesSig] at hb; exact (Bool.false_ne_true hb).elim
      | blist bb => simp only [BAcc.matchesSig] at hb; exact (Bool.false_ne_true hb).elim
      | btup bb => simp only [BAcc.matchesSig] at hb; exact (Bool.false_ne_true hb).elim

theorem batchPack_presList {α : Type} :
    ∀ (ss : List Sig) (bb : List (BAcc α)),
      Sig.wellformedList ss = true → BAcc.matchesSigList bb ss = true →
      Packed.hasShapeList (batchPackZip (batchSignatureList ss) bb)
          (batchSignatureList ss) = true ∧
        Packed.leafSizesList (batchPackZip (batchSignatureList ss) bb)
          = BAcc.leafSizesList bb
  | [], bb, _, hb => by
      cases bb with
      | cons b bb =>
          simp only [BAcc.matchesSigList] at hb; exact (Bool.false_ne_true hb).elim
      | nil => exact ⟨rfl, rfl⟩
  | s :: ss, bb, hwf, hb => by
      cases bb with
      | nil => simp only [BAcc.matchesSigList] at hb; exact (Bool.false_ne_true hb).elim
      | cons b bb =>
          simp only [Sig.wellformedList, Bool.and_eq_true] at hwf
          simp only [BAcc.matchesSigList, Bool.and_eq_true] at hb
          have h1 := batchPack_pres s b hwf.1 hb.1
          have h2 := batchPack_presList ss bb hwf.2 hb.2
          refine ⟨?_, ?_⟩
          · simp only [batchSignatureList, batchPackZip, Packed.hasShapeList,
              Bool.and_eq_true]
            exact ⟨h1.1, h2.1⟩
          · simp only [batchSignatureList, batchPackZip, Packed.leafSizesList,
              h1.2, h2.2, BAcc.leafSizesList]

theorem batchPack_presFields {α : Type} :
    ∀ (fs : List (String × Sig)) (bb : List (String × BAcc α)),
      (fs.map Prod.fst).Nodup → Sig.wellformedFields fs = true →
      BAcc.matchesSigFields bb fs = true →
      Packed.hasShapeFields (batchPackFields (batchSignatureFields fs) bb)
          (batchSignatureFields fs) = true ∧
        Packed.leafSizesFields (batchPackFields (batchSignatureFields fs) bb)
          = BAcc.leafSizesFields bb
  | [], bb, _, _, hb => by
      cases bb with
      | cons b bb =>
          simp only [BAcc.matchesSigFields] at hb; exact (Bool.false_ne_true hb).elim
      | nil => exact ⟨rfl, rfl⟩
  | (k, v) :: fs, bb, hnd, hwf, hb => by
      cases bb with
      | nil => simp only [BAcc.matchesSigFields] at hb; exact (Bool.false_ne_true hb).elim
      | cons kb bb =>
          obtain ⟨kb1, b⟩ := kb
          simp only [BAcc.matchesSigFields, Bool.and_eq_true, beq_iff_eq] at hb
          simp only [Sig.wellformedFields, Bool.and_eq_true] at hwf
          obtain ⟨⟨hkb, hbv⟩, hbrest⟩ := hb
          subst hkb
          simp only [List.map_cons, List.nodup_cons] at hnd
          have hknot : ∀ e ∈ batchSignatureFields fs, e.1 ≠ kb1 := by
            intro e he hek
            exact hnd.1 (by
              rw [← batchSignatureFields_keys fs]
              exact hek ▸ List.mem_map_of_mem Prod.fst he)
          have h1 := batchPack_pres v b hwf.1 hbv
          have h2 := batchPack_presFields fs bb hnd.2 hwf.2 hbrest
          refine ⟨?_, ?_⟩
          · simp only [batchSignatureFields, batchPackFields, lookup_cons_self,
              Option.getD_some, batchPackFields_skip b bb _ hknot,
              Packed.hasShapeFields, Bool.and_eq_true, beq_self_eq_true,
              Bool.true_and, true_and]
            exact ⟨h1.1, h2.1⟩
          · simp only [batchSignatureFields, batchPackFields, lookup_cons_self,
              Option.getD_some, batchPackFields_skip b bb _ hknot,
              Packed.leafSizesFields, h1.2, h2.2, BAcc.leafSizesFields]
end

/-- Folding `_batch_add` over a list of matching fragments keeps the
accumulator mirroring the signature and grows every leaf by the number
of fragments added. -/
theorem batchFold_pres {α : Type} (s : Sig) (hwf : s.wellformed = true) :
    ∀ (frags : List (Frag α)) (b : BAcc α),
      (∀ f ∈ frags, f.matches s = true) → b.matchesSig s = true →
      ((frags.foldl (fun acc f => batchAdd f s (batchSignature s) acc) b).matchesSig s
          = true ∧
        (frags.foldl (fun acc f => batchAdd f s (batchSignature s) acc) b).leafSizes
          = b.leafSizes.map (· + frags.length)) := by
  intro frags
  induction frags with
  | nil =>
      intro b _ hb
      refine ⟨hb, ?_⟩
      simp
  | cons f fs ih =>
      intro b hm hb
      have h1 := batchAdd_pres s f b hwf (hm f (List.mem_cons_self _ _)) hb
      have h2 := ih (batchAdd f s (batchSignature s) b)
        (fun g hg => hm g (List.mem_cons_of_mem _ hg)) h1.1
      refine ⟨h2.1, ?_⟩
      rw [List.foldl_cons, h2.2, h1.2, List.map_map]
      have hfun : ((fun x => x + fs.length) ∘ fun x => x + 1)
          = fun x => x + (f :: fs).length := by
        funext x
        simp [Function.comp]
        omega
      rw [hfun]

/-- **C1**: for every signature tree `s` and every finite sequence of
fragments each matching `s`, running `_batch_new` on the output
signature, then `_batch_add` once per fragment, then `_batch_pack`,
produces a batch whose tree shape equals the output signature
(`batchSignature s`) and in which every terminal leaf holds the `n`
added values: a stacked array whose leading dimension (length) is
`n = frags.length`. -/
theorem c1_batch_new_add_pack_correct {α : Type} (s : Sig) (frags : List (Frag α))
    (hwf : s.wellformed = true) (hm : ∀ f ∈ frags, f.matches s = true) :
    (batchPack (batchSignature s)
        (frags.foldl (fun acc f => batchAdd f s (batchSignature s) acc)
          (batchNew (batchSignature s)))).hasShape (batchSignature s) = true ∧
      (batchPack (batchSignature s)
        (frags.foldl (fun acc f => batchAdd f s (batchSignature s) acc)
          (batchNew (batchSignature s)))).leafSizes
        = List.replicate s.numLeaves frags.length := by
  have hfold := batchFold_pres s hwf frags (batchNew (batchSignature s)) hm
    (batchNew_matchesSig s)
  have hpack := batchPack_pres s
    (frags.foldl (fun acc f => batchAdd f s (batchSignature s) acc)
      (batchNew (batchSignature s))) hwf hfold.1
  refine ⟨hpack.1, ?_⟩
  rw [hpack.2, hfold.2, batchNew_leafSizes, List.map_replicate]
  simp

/-- Witness for `c1_batch_new_add_pack_correct` at a concrete signature
and two concrete fragments. -/
theorem c1_batch_new_add_pack_correct_witness :
    (c1Sig.wellformed = true ∧ ∀ f ∈ c1Frags, f.matches c1Sig = true) ∧
      ((batchPack (batchSignature c1Sig)
          (c1Frags.foldl (fun acc f => batchAdd f c1Sig (batchSignature c1Sig) acc)
            (batchNew (batchSignature c1Sig)))).hasShape (batchSignature c1Sig) = true ∧
        (batchPack (batchSignature c1Sig)
          (c1Frags.foldl (fun acc f => batchAdd f c1Sig (batchSignature c1Sig) acc)
            (batchNew (batchSignature c1Sig)))).leafSizes
          = List.replicate c1Sig.numLeaves c1Frags.length) :=
  ⟨⟨by decide, by decide⟩,
    c1_batch_new_add_pack_correct c1Sig c1Frags (by decide) (by decide)⟩

/-- When fewer fragments than a positive batch size arrive (and no
sentinel), the `iter_batches` loop never flushes: it just accumulates. -/
theorem iterFold_no_flush {α : Type} (si : Sig) (bsz : Int) :
    ∀ (frags : List (Frag α)) (st : IterState α),
      ((st.count + frags.length : Nat) : Int) < bsz →
      List.foldl (fun s f => iterBatchesStep si (batchSignature si) bsz s (.frag f))
          st frags
        = ⟨List.foldl (fun b f => batchAdd f si (batchSignature si) b) st.batch frags,
           st.count + frags.length, st.out⟩
  | [], st, _ => by cases st; simp
  | f :: fs, st, h => by
      have hne : ¬(0 < bsz ∧ (st.count : Int) + 1 = bsz) := by
        rintro ⟨hpos, heq⟩
        have hlt : ((st.count + (f :: fs).length : Nat) : Int) < bsz := h
        simp only [List.length_cons] at hlt
        push_cast at hlt
        omega
      have hstep : iterBatchesStep si (batchSignature si) bsz st (.frag f)
          = ⟨batchAdd f si (batchSignature si) st.batch, st.count + 1, st.out⟩ := by
        simp [iterBatchesStep, hne]
      rw [List.foldl_cons, List.foldl_cons, hstep,
        iterFold_no_flush si bsz fs
          ⟨batchAdd f si (batchSignature si) st.batch, st.count + 1, st.out⟩
          (by
            simp only [List.length_cons] at h
            push_cast at h ⊢
            omega)]
      simp only [List.length_cons, IterState.mk.injEq, true_and, and_true]
      omega

/-- **C3**: for a source of exactly 7 fragments and `batch_size=10`, the
batch generator yields zero batches with `incomplete=False`, and with
`incomplete=True` yields exactly one batch whose terminal leaves each
have length 7. -/
theorem c3_incomplete_batch_flag {α : Type} (si : Sig) (frags : List (Frag α))
    (hwf : si.wellformed = true) (hm : ∀ f ∈ frags, f.matches si = true)
    (hlen : frags.length = 7) :
    iterBatches si 10 false (frags.map .frag) = [] ∧
      (iterBatches si 10 true (frags.map .frag)).length = 1 ∧
      ∀ p ∈ iterBatches si 10 true (frags.map .frag),
        p.leafSizes = List.replicate si.numLeaves 7 := by
  have hfold := iterFold_no_flush si 10 frags
    ⟨batchNew (batchSignature si), 0, []⟩
    (by simp [hlen])
  have hbare :
      ∀ inc : Bool, iterBatches si 10 inc (frags.map .frag)
        = if 0 < frags.length ∧ inc = true then
            [batchPack (batchSignature si)
              (List.foldl (fun b f => batchAdd f si (batchSignature si) b)
                (batchNew (batchSignature si)) frags)]
          else [] := by
    intro inc
    simp only [iterBatches]
    rw [List.foldl_map, hfold]
    simp
  have hsizes :
      (batchPack (batchSignature si)
        (List.foldl (fun b f => batchAdd f si (batchSignature si) b)
          (batchNew (batchSignature si)) frags)).leafSizes
        = List.replicate si.numLeaves 7 := by
    have hfoldp := batchFold_pres si hwf frags (batchNew (batchSignature si)) hm
      (batchNew_matchesSig si)
    have hpack := batchPack_pres si
      (List.foldl (fun b f => batchAdd f si (batchSignature si) b)
        (batchNew (batchSignature si)) frags) hwf hfoldp.1
    rw [hpack.2, hfoldp.2, batchNew_leafSizes, List.map_replicate]
    simp [hlen]
  refine ⟨?_, ?_, ?_⟩
  · rw [hbare false]
    simp
  · rw [hbare true]
    simp [hlen]
  · intro p hp
    rw [hbare true] at hp
    simp [hlen] at hp
    rw [hp]
    exact hsizes

/-- Witness for `c3_incomplete_batch_flag` at a concrete signature and
seven concrete fragments. -/
theorem c3_incomplete_batch_flag_witness :
    ((Sig.term "segment").wellformed = true ∧
      (∀ f ∈ (List.range 7).map (fun i => (Frag.val i : Frag Nat)),
        f.matches (Sig.term "segment") = true) ∧
      ((List.range 7).map (fun i => (Frag.val i : Frag Nat))).length = 7) ∧
      (iterBatches (Sig.term "segment") 10 false
          (((List.range 7).map (fun i => (Frag.val i : Frag Nat))).map .frag) = [] ∧
        (iterBatches (Sig.term "segment") 10 true
          (((List.range 7).map (fun i => (Frag.val i : Frag Nat))).map .frag)).length = 1 ∧
        ∀ p ∈ iterBatches (Sig.term "segment") 10 true
            (((List.range 7).map (fun i => (Frag.val i : Frag Nat))).map .frag),
          p.leafSizes = List.replicate (Sig.term "segment").numLeaves 7) :=
  ⟨⟨by decide, by decide, by decide⟩,
    c3_incomplete_batch_flag (Sig.term "segment")
      ((List.range 7).map (fun i => (Frag.val i : Frag Nat)))
      (by decide) (by decide) (by decide)⟩

/-- **C4 (counterexample)**: the claim says every flush point reached
with an empty accumulator and `incomplete=False` yields nothing,
including the end-of-file flush of mono-batch mode. But the mono-batch
flush of `FileBasedBatchGenerator.__call__` (lines 473-478) packs and
yields unconditionally: one file with zero fragments and
`batch_size=0`, `incomplete=False` yields one batch, not zero. -/
theorem c4_empty_flush_counterexample :
    (fbCall (Sig.term "segment") 0 false false
        [⟨"file1", Except.ok ([] : List (Frag Unit))⟩]).batches.length = 1 :=
  rfl

/-- The `iter_batches` per-item step never grows the output while the
count stays zero on sentinel items. -/
theorem iterFold_eob_empty {α : Type} (si so : Sig) (bsz : Int) (out : List (Packed α)) :
    ∀ k : Nat,
      List.foldl (iterBatchesStep si so bsz) ⟨batchNew so, 0, out⟩
          (List.replicate k .eob)
        = ⟨batchNew so, 0, out⟩
  | 0 => rfl
  | k + 1 => by
      rw [List.replicate_succ, List.foldl_cons]
      have hstep : iterBatchesStep si so bsz ⟨batchNew so, 0, out⟩ .eob
          = ⟨batchNew so, 0, out⟩ := by
        simp [iterBatchesStep]
      rw [hstep, iterFold_eob_empty si so bsz out k]

/-- Driver loop over files that all preprocess fine but yield no
fragments, with a positive batch size: the state never changes. -/
theorem fbCallGo_empty_files {α : Type} (si so : Sig) (bsz : Int) (r : Bool)
    (hbsz : 0 < bsz) :
    ∀ (files : List (PyFile α)) (st : IterState α) (ws : List String),
      (∀ fl ∈ files, fl.pre = .ok []) →
      fbCallGo si so bsz r files st ws = (st, ws, none)
  | [], st, ws, _ => rfl
  | fl :: files, st, ws, hall => by
      have h1 := hall fl (List.mem_cons_self _ _)
      simp only [fbCallGo, h1, fbProcessFile, List.foldl_nil]
      rw [if_neg (by omega)]
      exact fbCallGo_empty_files si so bsz r hbsz files st ws
        (fun g hg => hall g (List.mem_cons_of_mem _ hg))

/-- **C4 (amended)**: with an empty accumulator and `incomplete=False`,
no batch is yielded at the sentinel-triggered flush points of
`iter_batches` nor at the driver's final incomplete flush (for a
positive batch size); the mono-batch end-of-file flush
(`batch_size < 1`), however, packs and yields unconditionally, even
when zero fragments were added for that file. -/
theorem c4_empty_flush_amended {α : Type} :
    (∀ (si : Sig) (bsz : Int) (inc : Bool) (k : Nat),
      iterBatches (α := α) si bsz inc (List.replicate k .eob) = []) ∧
    (∀ (si : Sig) (bsz : Int) (r inc : Bool) (files : List (PyFile α)),
      (∀ fl ∈ files, fl.pre = .ok []) → 0 < bsz →
      (fbCall si bsz r inc files).batches = []) ∧
    (∀ (si : Sig) (uri : String) (r : Bool) (bsz : Int), bsz < 1 →
      (fbCall (α := α) si bsz r false [⟨uri, .ok []⟩]).batches
        = [batchPack (batchSignature si) (batchNew (batchSignature si))]) := by
  refine ⟨?_, ?_, ?_⟩
  · intro si bsz inc k
    simp only [iterBatches]
    rw [iterFold_eob_empty si (batchSignature si) bsz [] k]
    simp
  · intro si bsz r inc files hall hbsz
    simp only [fbCall]
    rw [fbCallGo_empty_files si (batchSignature si) bsz r hbsz files _ _ hall]
    simp
  · intro si uri r bsz hbsz
    simp only [fbCall, fbCallGo, fbProcessFile, List.foldl_nil]
    rw [if_pos hbsz]
    simp [fbCallGo]

/-- Witness for `c4_empty_flush_amended` at concrete inputs
(one fragmentless file, batch sizes 5 and 0). -/
theorem c4_empty_flush_amended_witness :
    iterBatches (α := Unit) (Sig.term "segment") 5 false
        (List.replicate 2 .eob) = [] ∧
      (fbCall (α := Unit) (Sig.term "segment") 5 true false
        [⟨"file1", .ok []⟩]).batches = [] ∧
      (fbCall (α := Unit) (Sig.term "segment") 0 true false
        [⟨"file1", .ok []⟩]).batches
        = [batchPack (batchSignature (Sig.term "segment"))
            (batchNew (batchSignature (Sig.term "segment")))] :=
  ⟨c4_empty_flush_amended.1 (Sig.term "segment") 5 false 2,
    c4_empty_flush_amended.2.1 (Sig.term "segment") 5 true false
      [⟨"file1", .ok []⟩] (by simp) (by decide),
    c4_empty_flush_amended.2.2 (Sig.term "segment") "file1" true 0 (by decide)⟩

/-- **C8**: for a file generator of 3 files where preprocessing of file
2 raises, the driver with `robust=True` yields exactly the batches
built from the fragments of files 1 and 3 (as if file 2 were absent),
emitting one warning for file 2 and no exception; with `robust=False`
the exception propagates to the caller and no batch beyond those
already produced from file 1 is yielded. -/
theorem c8_driver_robustness {α : Type} (si : Sig) (bsz : Int) (inc : Bool)
    (f1 f2 f3 : PyFile α) (A C : List (Frag α)) (e : String)
    (h1 : f1.pre = .ok A) (h2 : f2.pre = .error e) (h3 : f3.pre = .ok C) :
    ((fbCall si bsz true inc [f1, f2, f3]).batches
        = (fbCall si bsz true inc [f1, f3]).batches ∧
      (fbCall si bsz true inc [f1, f2, f3]).warnings = [warnMsg f2.uri] ∧
      (fbCall si bsz true inc [f1, f2, f3]).error = none) ∧
    ((fbCall si bsz false inc [f1, f2, f3]).batches
        = (fbCall si bsz false false [f1]).batches ∧
      (fbCall si bsz false inc [f1, f2, f3]).error = some e) := by
  have hok : ∀ (r : Bool) (fl : PyFile α) (frags : List (Frag α))
      (rest : List (PyFile α)) (st : IterState α) (ws : List String),
      fl.pre = .ok frags →
      fbCallGo si (batchSignature si) bsz r (fl :: rest) st ws
        = fbCallGo si (batchSignature si) bsz r rest
            (fbProcessFile si (batchSignature si) bsz st frags) ws := by
    intro r fl frags rest st ws h
    simp only [fbCallGo, h]
  have hskip : ∀ (rest : List (PyFile α)) (st : IterState α) (ws : List String),
      fbCallGo si (batchSignature si) bsz true (f2 :: rest) st ws
        = fbCallGo si (batchSignature si) bsz true rest st (ws ++ [warnMsg f2.uri]) := by
    intro rest st ws
    simp only [fbCallGo, h2, if_pos]
  have hraise : ∀ (rest : List (PyFile α)) (st : IterState α) (ws : List String),
      fbCallGo si (batchSignature si) bsz false (f2 :: rest) st ws
        = (st, ws, some e) := by
    intro rest st ws
    simp only [fbCallGo, h2]
    rfl
  constructor
  · have hl : fbCallGo si (batchSignature si) bsz true [f1, f2, f3]
        ⟨batchNew (batchSignature si), 0, []⟩ []
        = (fbProcessFile si (batchSignature si) bsz
            (fbProcessFile si (batchSignature si) bsz
              ⟨batchNew (batchSignature si), 0, []⟩ A) C,
           [warnMsg f2.uri], none) := by
      rw [hok true f1 A _ _ _ h1, hskip, hok true f3 C _ _ _ h3]
      rfl
    have hr : fbCallGo si (batchSignature si) bsz true [f1, f3]
        ⟨batchNew (batchSignature si), 0, []⟩ []
        = (fbProcessFile si (batchSignature si) bsz
            (fbProcessFile si (batchSignature si) bsz
              ⟨batchNew (batchSignature si), 0, []⟩ A) C,
           [], none) := by
      rw [hok true f1 A _ _ _ h1, hok true f3 C _ _ _ h3]
      rfl
    refine ⟨?_, ?_, ?_⟩ <;>
      simp only [fbCall, hl, hr] <;>
      split <;> rfl
  · have hl : fbCallGo si (batchSignature si) bsz false [f1, f2, f3]
        ⟨batchNew (batchSignature si), 0, []⟩ []
        = (fbProcessFile si (batchSignature si) bsz
            ⟨batchNew (batchSignature si), 0, []⟩ A, [], some e) := by
      rw [hok false f1 A _ _ _ h1, hraise]
    have hr : fbCallGo si (batchSignature si) bsz false [f1]
        ⟨batchNew (batchSignature si), 0, []⟩ []
        = (fbProcessFile si (batchSignature si) bsz
            ⟨batchNew (batchSignature si), 0, []⟩ A, [], none) := by
      rw [hok false f1 A _ _ _ h1]
      rfl
    constructor
    · simp only [fbCall, hl, hr]
      rw [if_neg (by simp)]
    · simp only [fbCall, hl]

/-- Witness for `c8_driver_robustness` at three concrete files. -/
theorem c8_driver_robustness_witness :
    ((⟨"f1", .ok [Frag.val 0]⟩ : PyFile Nat).pre = .ok [Frag.val 0] ∧
      (⟨"f2", .error "boom"⟩ : PyFile Nat).pre = .error "boom" ∧
      (⟨"f3", .ok [Frag.val 1]⟩ : PyFile Nat).pre = .ok [Frag.val 1]) ∧
    (((fbCall (Sig.term "segment") 2 true true
          [⟨"f1", .ok [Frag.val 0]⟩, ⟨"f2", .error "boom"⟩,
            (⟨"f3", .ok [Frag.val 1]⟩ : PyFile Nat)]).batches
        = (fbCall (Sig.term "segment") 2 true true
          [⟨"f1", .ok [Frag.val 0]⟩, ⟨"f3", .ok [Frag.val 1]⟩]).batches ∧
      (fbCall (Sig.term "segment") 2 true true
          [⟨"f1", .ok [Frag.val 0]⟩, ⟨"f2", .error "boom"⟩,
            (⟨"f3", .ok [Frag.val 1]⟩ : PyFile Nat)]).warnings
        = [warnMsg "f2"] ∧
      (fbCall (Sig.term "segment") 2 true true
          [⟨"f1", .ok [Frag.val 0]⟩, ⟨"f2", .error "boom"⟩,
            (⟨"f3", .ok [Frag.val 1]⟩ : PyFile Nat)]).error = none) ∧
    ((fbCall (Sig.term "segment") 2 false true
          [⟨"f1", .ok [Frag.val 0]⟩, ⟨"f2", .error "boom"⟩,
            (⟨"f3", .ok [Frag.val 1]⟩ : PyFile Nat)]).batches
        = (fbCall (Sig.term "segment") 2 false false
            [⟨"f1", .ok [Frag.val 0]⟩]).batches ∧
      (fbCall (Sig.term "segment") 2 false true
          [⟨"f1", .ok [Frag.val 0]⟩, ⟨"f2", .error "boom"⟩,
            (⟨"f3", .ok [Frag.val 1]⟩ : PyFile Nat)]).error = some "boom")) :=
  ⟨⟨rfl, rfl, rfl⟩,
    c8_driver_robustness (Sig.term "segment") 2 true
      ⟨"f1", .ok [Frag.val 0]⟩ ⟨"f2", .error "boom"⟩ ⟨"f3", .ok [Frag.val 1]⟩
      [Frag.val 0] [Frag.val 1] "boom" rfl rfl rfl⟩

/-- A structural mapping with no `'type'` key never has the key set of
a terminal mapping `{'type': ...}`. -/
theorem keysEq_single_type {fsi : List (String × Sig)}
    (h : (fsi.map Prod.fst).contains "type" = false) :
    keysEq (fsi.map Prod.fst) ["type"] = false := by
  have h2 : (["type"] : List String).all (fsi.map Prod.fst).contains = false := by
    simp only [List.all_cons, List.all_nil, Bool.and_true, h]
  rw [keysEq, h2, Bool.and_false]

/-- Looking a key up in a wellformed field list yields a wellformed
subtree (the junk default is wellformed too). -/
theorem lookup_wellformed (k : String) :
    ∀ fsi : List (String × Sig), Sig.wellformedFields fsi = true →
      ((fsi.lookup k).getD junkSig).wellformed = true
  | [], _ => by simp [junkSig, Sig.wellformed, Sig.wellformedList]
  | (k', v) :: fsi, h => by
      simp only [Sig.wellformedFields, Bool.and_eq_true] at h
      by_cases hk : k = k'
      · subst hk
        simp [List.lookup, h.1]
      · rw [lookup_cons_of_ne hk]
        exact lookup_wellformed k fsi h.2

mutual
/-- **C2 core**: for a wellformed input signature, `_check_signature`
succeeds exactly on spec-compatible signature pairs. -/
theorem checkSignature_ok_iff :
    ∀ (s t : Sig), s.wellformed = true →
      (checkSignature s t = .ok ↔ compatibleSpec s t = true)
  | .term _, t, _ => by simp [checkSignature, compatibleSpec]
  | .sdict fsi, .term tt, hwf => by
      have hc : (fsi.map Prod.fst).contains "type" = false := by
        simp only [Sig.wellformed, Bool.and_eq_true, Bool.not_eq_true'] at hwf
        exact hwf.1.2
      simp [checkSignature, compatibleSpec, keysEq_single_type hc]
  | .sdict fsi, .sdict fso, hwf => by
      have hwfF : Sig.wellformedFields fsi = true := by
        simp only [Sig.wellformed, Bool.and_eq_true] at hwf
        exact hwf.2
      by_cases hk : keysEq (fsi.map Prod.fst) (fso.map Prod.fst) = true
      · have hiff := checkSignature_ok_iffFields fsi fso hwfF
        simp [checkSignature, compatibleSpec, hk, hiff]
      · simp [checkSignature, compatibleSpec, hk]
  | .sdict _, .slist _, _ => by simp [checkSignature, compatibleSpec]
  | .sdict _, .stup _, _ => by simp [checkSignature, compatibleSpec]
  | .slist xsi, .slist xso, hwf => by
      have hwfL : Sig.wellformedList xsi = true := by
        simpa [Sig.wellformed] using hwf
      by_cases hl : xsi.length = xso.length
      · simp [checkSignature, compatibleSpec, hl,
          checkSignature_ok_iffList xsi xso hwfL]
      · simp [checkSignature, compatibleSpec, hl]
  | .slist _, .term _, _ => by simp [checkSignature, compatibleSpec]
  | .slist _, .stup _, _ => by simp [checkSignature, compatibleSpec]
  | .slist _, .sdict _, _ => by simp [checkSignature, compatibleSpec]
  | .stup xsi, .stup xso, hwf => by
      have hwfL : Sig.wellformedList xsi = true := by
        simpa [Sig.wellformed] using hwf
      by_cases hl : xsi.length = xso.length
      · simp [checkSignature, compatibleSpec, hl,
          checkSignature_ok_iffList xsi xso hwfL]
      · simp [checkSignature, compatibleSpec, hl]
  | .stup _, .term _, _ => by simp [checkSignature, compatibleSpec]
  | .stup _, .slist _, _ => by simp [checkSignature, compatibleSpec]
  | .stup _, .sdict _, _ => by simp [checkSignature, compatibleSpec]

theorem checkSignature_ok_iffList :
    ∀ (xsi xso : List Sig), Sig.wellformedList xsi = true →
      (checkSignatureList xsi xso = .ok ↔ compatibleSpecList xsi xso = true)
  | [], xso, _ => by
      cases xso <;> simp [checkSignatureList, compatibleSpecList]
  | si :: xsi, [], _ => by simp [checkSignatureList, compatibleSpecList]
  | si :: xsi, so :: xso, hwf => by
      have hw : Sig.wellformed si = true ∧ Sig.wellformedList xsi = true := by
        simpa [Sig.wellformedList, Bool.and_eq_true] using hwf
      have h1 := checkSignature_ok_iff si so hw.1
      have h2 := checkSignature_ok_iffList xsi xso hw.2
      rcases hcs : checkSignature si so with _ | _ | _
      · have hc : compatibleSpec si so = true := h1.1 hcs
        simp [checkSignatureList, hcs, compatibleSpecList, hc, h2]
      · have hc : compatibleSpec si so = false := by
          by_cases hcc : compatibleSpec si so = true
          · rw [h1.2 hcc] at hcs; cases hcs
          · simpa using hcc
        simp [checkSignatureList, hcs, compatibleSpecList, hc]
      · have hc : compatibleSpec si so = false := by
          by_cases hcc : compatibleSpec si so = true
          · rw [h1.2 hcc] at hcs; cases hcs
          · simpa using hcc
        simp [checkSignatureList, hcs, compatibleSpecList, hc]

theorem checkSignature_ok_iffFields :
    ∀ (fsi fso : List (String × Sig)), Sig.wellformedFields fsi = true →
      (checkSignatureFields fsi fso = .ok ↔ compatibleSpecFields fsi fso = true)
  | fsi, [], _ => by simp [checkSignatureFields, compatibleSpecFields]
  | fsi, (k, so) :: fso, hwf => by
      have h1 := checkSignature_ok_iff ((fsi.lookup k).getD junkSig) so
        (lookup_wellformed k fsi hwf)
      have h2 := checkSignature_ok_iffFields fsi fso hwf
      rcases hcs : checkSignature ((fsi.lookup k).getD junkSig) so with _ | _ | _
      · have hc : compatibleSpec ((fsi.lookup k).getD junkSig) so = true := h1.1 hcs
        simp [checkSignatureFields, hcs, compatibleSpecFields, hc, h2]
      · have hc : compatibleSpec ((fsi.lookup k).getD junkSig) so = false := by
          by_cases hcc : compatibleSpec ((fsi.lookup k).getD junkSig) so = true
          · rw [h1.2 hcc] at hcs; cases hcs
          · simpa using hcc
        simp [checkSignatureFields, hcs, compatibleSpecFields, hc]
      · have hc : compatibleSpec ((fsi.lookup k).getD junkSig) so = false := by
          by_cases hcc : compatibleSpec ((fsi.lookup k).getD junkSig) so = true
          · rw [h1.2 hcc] at hcs; cases hcs
          · simpa using hcc
        simp [checkSignatureFields, hcs, compatibleSpecFields, hc]
end

/-- **C2 (counterexample)**: the claim says two nodes of different
dynamic types raise the signature-mismatch error; but for an input-side
mapping (without `'type'`) against an output-side list, the code calls
`sign_out.keys()` on a list and dies with an `AttributeError` instead
of the mismatch error. -/
theorem c2_check_signature_counterexample :
    checkSignature (.sdict [("a", .term "segment")]) (.slist [.term "segment"])
        = .attrError ∧ CheckResult.attrError ≠ CheckResult.mismatch :=
  ⟨rfl, by decide⟩

/-- **C2 (amended)**: for a wellformed input signature,
`_check_signature` raises the signature-mismatch error exactly when the
lock-step walk meets (a) two mappings without an input-side `'type'`
key and different key sets, (b) different dynamic types with the input
side not a mapping, or (c) two same-kind sequences of different
lengths; an input-side mapping containing `'type'` short-circuits as
compatible; and when the input side is a mapping without `'type'` and
the output side is a sequence, the walk fails with an attribute error,
not the signature-mismatch error. -/
theorem c2_check_signature_amended :
    (∀ s t : Sig, s.wellformed = true →
        (checkSignature s t = .ok ↔ compatibleSpec s t = true)) ∧
      (∀ (fsi : List (String × Sig)) (xs : List Sig),
        checkSignature (.sdict fsi) (.slist xs) = .attrError ∧
          checkSignature (.sdict fsi) (.stup xs) = .attrError) :=
  ⟨checkSignature_ok_iff, fun _ _ => ⟨rfl, rfl⟩⟩

/-- Witness for `c2_check_signature_amended` at concrete signatures. -/
theorem c2_check_signature_amended_witness :
    ((Sig.sdict [("a", .term "segment")]).wellformed = true ∧
      (checkSignature (.sdict [("a", .term "segment")])
          (.sdict [("a", .term "batch")]) = .ok ↔
        compatibleSpec (.sdict [("a", .term "segment")])
          (.sdict [("a", .term "batch")]) = true)) ∧
      (checkSignature (.sdict [("b", .term "label")]) (.slist []) = .attrError ∧
        checkSignature (.sdict [("b", .term "label")]) (.stup []) = .attrError) :=
  ⟨⟨by decide, c2_check_signature_amended.1 _ _ (by decide)⟩,
    c2_check_signature_amended.2 [("b", .term "label")] []⟩

/-- With variable length disabled, the window loop is a pure
containment filter (the overflow branch neither yields nor breaks). -/
theorem processWindows_fixed (cfg : SlidingSegmentsCfg) (seg : Seg)
    (hv : cfg.variable_length_ = false) :
    ∀ ws : List Seg, processWindows cfg seg ws = ws.filter (Seg.containsSeg seg)
  | [] => rfl
  | w :: ws => by
      by_cases hc : Seg.containsSeg seg w = true
      · simp [processWindows, List.filter_cons, hc,
          processWindows_fixed cfg seg hv ws]
      · simp [processWindows, List.filter_cons, hc, hv,
          processWindows_fixed cfg seg hv ws]

/-- Filtering an initial range by `· ≤ K` keeps the first `K + 1`
numbers. -/
theorem range_filter_le :
    ∀ N K : Nat, K < N →
      (List.range N).filter (fun i => decide (i ≤ K)) = List.range (K + 1)
  | 0, K, h => absurd h (Nat.not_lt_zero K)
  | N + 1, K, h => by
      rw [List.range_succ, List.filter_append]
      rcases Nat.lt_or_ge K N with hKN | hKN
      · rw [range_filter_le N K hKN]
        have : ¬ N ≤ K := Nat.not_le.mpr hKN
        simp [this]
      · have hKeq : K = N := Nat.le_antisymm (Nat.lt_succ_iff.mp h) hKN
        subst hKeq
        have hall : (List.range K).filter (fun i => decide (i ≤ K))
            = List.range K := by
          apply List.filter_eq_self.mpr
          intro a ha
          simp only [decide_eq_true_eq]
          exact Nat.le_of_lt (List.mem_range.mp ha)
        rw [hall]
        simp [List.range_succ]

/-- Closed form of the fixed-length sliding-segment stream over one
segment: the windows at `start + i*step` for `i = 0 .. ⌊(D-w)/s⌋`. -/
theorem iterSegmentsSeg_fixed_eq (w s : Rat) (seg : Seg)
    (hw : 0 < w) (hs : 0 < s) (hwD : w ≤ seg.duration) :
    iterSegmentsSeg (slidingSegmentsFixed w s) seg
      = (List.range (⌊(seg.duration - w) / s⌋₊ + 1)).map
          (fun i => ⟨seg.start + i * s, seg.start + i * s + w⟩) := by
  have hD : seg.duration = seg.stop - seg.start := rfl
  have h0 : (0 : Rat) ≤ (seg.duration - w) / s := by
    apply div_nonneg _ hs.le
    linarith
  have hKN : ⌊(seg.duration - w) / s⌋₊ < ⌈(seg.stop - seg.start) / s⌉₊ := by
    have h1 : (⌊(seg.duration - w) / s⌋₊ : Rat) ≤ (seg.duration - w) / s :=
      Nat.floor_le h0
    have h2 : (seg.duration - w) / s < seg.duration / s :=
      div_lt_div_of_pos_right (by linarith) hs
    have h3 : seg.duration / s ≤ (⌈(seg.stop - seg.start) / s⌉₊ : Rat) := by
      rw [hD]
      exact Nat.le_ceil _
    have : (⌊(seg.duration - w) / s⌋₊ : Rat)
        < (⌈(seg.stop - seg.start) / s⌉₊ : Rat) := by linarith
    exact_mod_cast this
  unfold iterSegmentsSeg slidingSegmentsFixed
  dsimp only
  rw [if_neg (by linarith [hwD]), if_neg (by linarith [hwD]),
    processWindows_fixed _ _ rfl]
  unfold slidingWindowList
  rw [List.filter_map]
  have hcong : (List.range ⌈(seg.stop - seg.start) / s⌉₊).filter
        ((Seg.containsSeg seg) ∘
          (fun i : Nat => (⟨seg.start + i * s, seg.start + i * s + w⟩ : Seg)))
      = (List.range ⌈(seg.stop - seg.start) / s⌉₊).filter
          (fun i => decide (i ≤ ⌊(seg.duration - w) / s⌋₊)) := by
    apply List.filter_congr
    intro i _
    simp only [Function.comp, Seg.containsSeg]
    have hle : seg.start ≤ seg.start + (i : Rat) * s := by
      have : (0 : Rat) ≤ (i : Rat) * s :=
        mul_nonneg (by exact_mod_cast Nat.zero_le i) hs.le
      linarith
    rw [decide_eq_true hle, Bool.true_and]
    apply decide_eq_decide.mpr
    rw [Nat.le_floor_iff h0, le_div_iff₀ hs]
    constructor
    · intro hc
      rw [hD]
      linarith
    · intro hc
      rw [hD] at hc
      linarith
  rw [hcong, range_filter_le _ _ hKN]

/-- **C5**: for every input segment of duration `D ≥ w` with window
duration `w > 0` and step `s > 0`, the fixed-length sliding-segments
sampler yields exactly `⌊(D - w)/s⌋ + 1` windows, each of duration
exactly `w`, with consecutive start times increasing by exactly `s`. -/
theorem c5_sliding_segments_count (w s : Rat) (seg : Seg)
    (hw : 0 < w) (hs : 0 < s) (hwD : w ≤ seg.duration) :
    (iterSegmentsSeg (slidingSegmentsFixed w s) seg).length
        = ⌊(seg.duration - w) / s⌋₊ + 1 ∧
      (∀ x ∈ iterSegmentsSeg (slidingSegmentsFixed w s) seg, x.duration = w) ∧
      (∀ i : Nat, i + 1 < (iterSegmentsSeg (slidingSegmentsFixed w s) seg).length →
        ((iterSegmentsSeg (slidingSegmentsFixed w s) seg).getD (i + 1) ⟨0, 0⟩).start
          = ((iterSegmentsSeg (slidingSegmentsFixed w s) seg).getD i ⟨0, 0⟩).start
              + s) := by
  rw [iterSegmentsSeg_fixed_eq w s seg hw hs hwD]
  have hget : ∀ j : Nat, j < ⌊(seg.duration - w) / s⌋₊ + 1 →
      (((List.range (⌊(seg.duration - w) / s⌋₊ + 1)).map
          (fun i : Nat => (⟨seg.start + i * s, seg.start + i * s + w⟩ : Seg))).getD
        j ⟨0, 0⟩)
      = ⟨seg.start + j * s, seg.start + j * s + w⟩ := by
    intro j hj
    rw [List.getD_eq_getElem _ _ (by simpa using hj), List.getElem_map,
      List.getElem_range]
  refine ⟨by simp, ?_, ?_⟩
  · intro x hx
    simp only [List.mem_map, List.mem_range] at hx
    obtain ⟨i, _, hfi⟩ := hx
    rw [← hfi]
    simp [Seg.duration]
  · intro i hi
    simp only [List.length_map, List.length_range] at hi
    rw [hget (i + 1) hi, hget i (by omega)]
    push_cast
    ring

/-- Witness for `c5_sliding_segments_count`: a window of 2 sliding by 1
over `[0, 5)` gives 4 windows. -/
theorem c5_sliding_segments_count_witness :
    ((0 : Rat) < 2 ∧ (0 : Rat) < 1 ∧ (2 : Rat) ≤ (Seg.mk 0 5).duration) ∧
      ((iterSegmentsSeg (slidingSegmentsFixed 2 1) ⟨0, 5⟩).length
          = ⌊((Seg.mk 0 5).duration - 2) / 1⌋₊ + 1 ∧
        (∀ x ∈ iterSegmentsSeg (slidingSegmentsFixed 2 1) ⟨0, 5⟩,
          x.duration = 2) ∧
        (∀ i : Nat,
          i + 1 < (iterSegmentsSeg (slidingSegmentsFixed 2 1) ⟨0, 5⟩).length →
          ((iterSegmentsSeg (slidingSegmentsFixed 2 1) ⟨0, 5⟩).getD (i + 1)
              ⟨0, 0⟩).start
            = ((iterSegmentsSeg (slidingSegmentsFixed 2 1) ⟨0, 5⟩).getD i
                ⟨0, 0⟩).start + 1)) :=
  ⟨⟨by norm_num, by norm_num, by norm_num [Seg.duration]⟩,
    c5_sliding_segments_count 2 1 ⟨0, 5⟩ (by norm_num) (by norm_num)
      (by norm_num [Seg.duration])⟩

/-- Every track yielded by `RandomTracks.iter_tracks` is a track of the
annotation it draws from. -/
theorem iterTracksNth_mem {ann : Annot} {o : Nat → Nat × Nat} {k : Nat}
    {r : TRec} (h : iterTracksNth ann o k = some r) : r ∈ ann := by
  unfold iterTracksNth at h
  by_cases h1 : (Annot.timeline ann).length = 0
  · simp [h1] at h
  · simp only [h1, if_false] at h
    by_cases h2 : (ann.filter (fun t => decide (t.seg
        = (Annot.timeline ann).getD ((o k).1 % (Annot.timeline ann).length)
            ⟨0, 0⟩))).length = 0
    · rw [if_pos h2] at h
      cases h
    · rw [if_neg h2, Option.some.injEq] at h
      have hidx : (o k).2 % (ann.filter (fun t => decide (t.seg
          = (Annot.timeline ann).getD ((o k).1 % (Annot.timeline ann).length)
              ⟨0, 0⟩))).length
          < (ann.filter (fun t => decide (t.seg
              = (Annot.timeline ann).getD ((o k).1 % (Annot.timeline ann).length)
                  ⟨0, 0⟩))).length :=
        Nat.mod_lt _ (Nat.pos_of_ne_zero h2)
      have hmem := List.getD_eq_getElem _ (⟨⟨0, 0⟩, 0, 0⟩ : TRec) hidx
      rw [hmem] at h
      rw [← h]
      exact List.mem_of_mem_filter (List.getElem_mem hidx)

/-- Members of `subset([label])` carry that label. -/
theorem mem_subset_label {ann : Annot} {l : Nat} {r : TRec}
    (h : r ∈ Annot.subset ann [l] false) : r.label = l := by
  have := List.of_mem_filter h
  simpa using this

/-- Members of `subset([label], invert=True)` carry a different label. -/
theorem mem_subset_invert {ann : Annot} {l : Nat} {r : TRec}
    (h : r ∈ Annot.subset ann [l] true) : r.label ≠ l := by
  have := List.of_mem_filter h
  simpa using this

/-- Anchor and positive of each per-label triplet come from the
positive subannotation, the negative from the complement. -/
theorem tripletsForLabel_mem (pos neg : Annot) (op onn : Nat → Nat × Nat) :
    ∀ (m j : Nat) (t : TRec × TRec × TRec),
      t ∈ (tripletsForLabel pos neg op onn m j).1 →
      t.1 ∈ pos ∧ t.2.1 ∈ pos ∧ t.2.2 ∈ neg
  | 0, _, t, ht => absurd ht (List.not_mem_nil t)
  | m + 1, j, t, ht => by
      unfold tripletsForLabel at ht
      rcases ha : iterTracksNth pos op (2 * j) with _ | a <;> rw [ha] at ht
      · cases ht
      rcases hp : iterTracksNth pos op (2 * j + 1) with _ | p <;> rw [hp] at ht
      · cases ht
      rcases hn : iterTracksNth neg onn j with _ | n <;> rw [hn] at ht
      · cases ht
      simp only [List.mem_cons] at ht
      rcases ht with rfl | ht
      · exact ⟨iterTracksNth_mem ha, iterTracksNth_mem hp, iterTracksNth_mem hn⟩
      · exact tripletsForLabel_mem pos neg op onn m (j + 1) t ht

/-- Label discipline of the per-label loop over the whole label list. -/
theorem iterTripletsGo_labels (ann : Annot) (perLabel : Nat)
    (op onn : Nat → Nat → Nat × Nat) :
    ∀ (ls : List Nat) (li : Nat) (t : TRec × TRec × TRec),
      t ∈ iterTripletsGo ann perLabel op onn ls li →
      t.1.label = t.2.1.label ∧ t.1.label ≠ t.2.2.label
  | [], _, t, ht => absurd ht (List.not_mem_nil t)
  | l :: ls, li, t, ht => by
      simp only [iterTripletsGo] at ht
      have hone : t ∈ (tripletsForLabel (Annot.subset ann [l] false)
          (Annot.subset ann [l] true) (op li) (onn li) perLabel 0).1 →
          t.1.label = t.2.1.label ∧ t.1.label ≠ t.2.2.label := by
        intro hmem
        obtain ⟨hA, hP, hN⟩ := tripletsForLabel_mem _ _ _ _ _ _ t hmem
        have hal := mem_subset_label hA
        have hpl := mem_subset_label hP
        have hnl := mem_subset_invert hN
        constructor
        · rw [hal, hpl]
        · rw [hal]
          exact fun hc => hnl hc.symm
      split at ht
      · exact hone ht
      · rcases List.mem_append.mp ht with hl | hr
        · exact hone hl
        · exact iterTripletsGo_labels ann perLabel op onn ls (li + 1) t hr

/-- **C6**: for every annotation, every triplet yielded by
`RandomTrackTriplets.iter_triplets` and (with labels attached) by
`RandomSegmentTriplets.iter_triplets` has anchor and positive carrying
the same label and anchor and negative carrying different labels,
whatever the random draws. -/
theorem c6_triplet_label_property :
    (∀ (ann : Annot) (perLabel : Nat) (op onn : Nat → Nat → Nat × Nat),
      ∀ t ∈ iterTriplets ann perLabel op onn,
        t.1.label = t.2.1.label ∧ t.1.label ≠ t.2.2.label) ∧
    (∀ (ann : Annot) (dur : Rat) (perLabel : Nat)
        (op onn : Nat → Nat → Nat × Nat) (ot : Nat → Rat),
      ∀ t ∈ iterSegTriplets ann dur perLabel op onn ot,
        t.1.2 = t.2.1.2 ∧ t.1.2 ≠ t.2.2.2) := by
  constructor
  · intro ann perLabel op onn t ht
    exact iterTripletsGo_labels ann perLabel op onn (Annot.labels ann) 0 t ht
  · intro ann dur perLabel op onn ot t ht
    simp only [iterSegTriplets] at ht
    split at ht
    · cases ht
    · simp only [List.mem_map] at ht
      obtain ⟨mt, hmt, rfl⟩ := ht
      obtain ⟨m, trip⟩ := mt
      have htrip : trip ∈ iterTriplets
          (ann.filter (fun r => decide (¬ r.seg.duration < dur)))
          perLabel op onn := by
        have := List.mk_mem_enum_iff_get?.mp hmt
        exact List.get?_mem this
      have hlab := iterTripletsGo_labels _ perLabel op onn _ 0 trip htrip
      exact ⟨hlab.1, hlab.2⟩

/-- Witness for `c6_triplet_label_property` at a concrete two-label
annotation, with constant random oracles. -/
theorem c6_triplet_label_property_witness :
    (c6Trip ∈ iterTriplets c6Ann 1 (fun _ _ => (0, 0)) (fun _ _ => (0, 0)) ∧
      c6Trip.1.label = c6Trip.2.1.label ∧
      c6Trip.1.label ≠ c6Trip.2.2.label) ∧
    (c6SegTrip ∈ iterSegTriplets c6Ann 0 1 (fun _ _ => (0, 0))
        (fun _ _ => (0, 0)) (fun _ => 0) ∧
      c6SegTrip.1.2 = c6SegTrip.2.1.2 ∧
      c6SegTrip.1.2 ≠ c6SegTrip.2.2.2) :=
  ⟨⟨by decide,
    c6_triplet_label_property.1 c6Ann 1 (fun _ _ => (0, 0))
      (fun _ _ => (0, 0)) c6Trip (by decide)⟩,
   ⟨by
      have hf : List.filter (fun r => decide (¬ r.seg.duration < (0 : Rat)))
          c6Ann = c6Ann := by
        simp only [c6Ann, List.filter_cons, List.filter_nil]
        norm_num [Seg.duration]
      simp only [iterSegTriplets, hf]
      rw [if_neg (by decide)]
      simp only [if_true]
      decide,
    c6_triplet_label_property.2 c6Ann 0 1 (fun _ _ => (0, 0))
      (fun _ _ => (0, 0)) (fun _ => 0) c6SegTrip (by
      have hf : List.filter (fun r => decide (¬ r.seg.duration < (0 : Rat)))
          c6Ann = c6Ann := by
        simp only [c6Ann, List.filter_cons, List.filter_nil]
        norm_num [Seg.duration]
      simp only [iterSegTriplets, hf]
      rw [if_neg (by decide)]
      simp only [if_true]
      decide)⟩⟩

/-- **C9**: `RandomTracks.from_file` raises `NameError` (`reference`
is undefined) on any file record instead of yielding the
`(segment, track)` fragments its contract promises — the intended
track stream (`iter_tracks` on the file's annotation) does produce a
fragment for the same record. -/
theorem c9_from_file_name_error :
    RandomTracks.from_file c9File = .error (.nameError "reference") ∧
      (iterTracksNth c9File.annotation (fun _ => (0, 0)) 0).isSome = true :=
  ⟨rfl, by decide⟩

/-- **C10**: sequentially, the background generator delivers the
wrapped generator's output truncated strictly before its first `None`
item: the full output when the generator never yields `None`, and for
a generator yielding `None` mid-stream, everything before it, with the
remaining items silently dropped. -/
theorem c10_background_none_sentinel {α : Type} :
    (∀ xs : List (Option α), bgDelivered xs = xs.takeWhile Option.isSome) ∧
      (∀ xs : List (Option α), none ∉ xs → bgDelivered xs = xs) ∧
      (∀ pre post : List (Option α), none ∉ pre →
        bgDelivered (pre ++ none :: post) = pre) := by
  have key : ∀ xs : List (Option α),
      bgDelivered xs = xs.takeWhile Option.isSome := by
    intro xs
    simp only [bgDelivered, bgQueue]
    induction xs with
    | nil => rfl
    | cons x xs ih =>
        cases x with
        | none => rfl
        | some a =>
            simp only [List.cons_append, List.takeWhile_cons,
              Option.isSome_some, if_true, ih]
  have self : ∀ xs : List (Option α), none ∉ xs →
      xs.takeWhile Option.isSome = xs := by
    intro xs hx
    apply List.takeWhile_eq_self_iff.mpr
    intro x hmem
    cases x with
    | none => exact absurd hmem hx
    | some a => rfl
  refine ⟨key, ?_, ?_⟩
  · intro xs hx
    rw [key, self xs hx]
  · intro pre post hpre
    rw [key]
    induction pre with
    | nil => rfl
    | cons x xs ih =>
        cases x with
        | none => exact absurd (List.mem_cons_self _ _) hpre
        | some a =>
            simp only [List.cons_append, List.takeWhile_cons, Option.isSome_some,
              if_true]
            rw [ih (fun hc => hpre (List.mem_cons_of_mem _ hc))]

theorem insertSorted_perm (x : Nat) :
    ∀ l : List Nat, (insertSorted x l).Perm (x :: l)
  | [] => List.Perm.refl _
  | a :: l => by
      unfold insertSorted
      split
      · exact List.Perm.refl _
      · exact ((insertSorted_perm x l).cons a).trans (List.Perm.swap x a l)

theorem sortNat_perm : ∀ l : List Nat, (sortNat l).Perm l
  | [] => List.Perm.refl _
  | a :: l => (insertSorted_perm a (sortNat l)).trans ((sortNat_perm l).cons a)

theorem rliUnique_nodup (y : List Nat) : (rliUnique y).Nodup :=
  (sortNat_perm y.dedup).nodup_iff.mpr y.nodup_dedup

/-- In a duplicate-free list, the index of the `l`-th element is `l`. -/
theorem nodup_indexOf_getD :
    ∀ (u : List Nat) (l : Nat), l < u.length → u.Nodup →
      u.indexOf (u.getD l 0) = l
  | [], l, h, _ => absurd h (by simp)
  | a :: u, 0, _, _ => by simp [List.indexOf_cons_self]
  | a :: u, l + 1, h, hn => by
      have hl : l < u.length := by simpa using h
      have hnu := (List.nodup_cons.mp hn).2
      have hna := (List.nodup_cons.mp hn).1
      have hv : u.getD l 0 ∈ u := by
        rw [List.getD_eq_getElem _ _ hl]
        exact List.getElem_mem hl
      have hne : u.getD l 0 ≠ a := fun hc => hna (hc ▸ hv)
      have hgd : (a :: u).getD (l + 1) 0 = u.getD l 0 := by
        simp [List.getD]
      rw [hgd, List.indexOf_cons_ne _ (by exact fun hc => hne hc.symm),
        nodup_indexOf_getD u l hl hnu]

/-- Every label index below `n_labels` has at least one sample. -/
theorem rliCounts_pos (y : List Nat) (l : Nat)
    (hl : l < (rliUnique y).length) : 0 < rliCounts y l := by
  have hv : (rliUnique y).getD l 0 ∈ rliUnique y := by
    rw [List.getD_eq_getElem _ _ hl]
    exact List.getElem_mem hl
  have hvy : (rliUnique y).getD l 0 ∈ y := by
    have h1 : (rliUnique y).getD l 0 ∈ y.dedup :=
      (sortNat_perm y.dedup).mem_iff.mp hv
    exact (List.mem_dedup).mp h1
  obtain ⟨i, hi, hy⟩ := List.mem_iff_getElem.mp hvy
  have hidx : labelIdx y i = l := by
    unfold labelIdx
    rw [List.getD_eq_getElem _ _ hi, hy]
    exact nodup_indexOf_getD _ l hl (rliUnique_nodup y)
  have hpool : i ∈ rliPool y l := by
    unfold rliPool
    apply List.mem_filter.mpr
    exact ⟨List.mem_range.mpr hi, by simp [hidx]⟩
  unfold rliCounts
  exact List.length_pos.mpr (fun hc => by simp [hc] at hpool)

/-- Samples in a label's pool carry that label. -/
theorem mem_rliPool (y : List Nat) (l i : Nat) (h : i ∈ rliPool y l) :
    labelIdx y i = l := by
  have := List.of_mem_filter h
  simpa using this

/-- Loop invariant of `random_label_index`: every label's pool is a
permutation of its initial pool and the consumed pointer is in
range. -/
def rliInv (y : List Nat) (st : RliState) : Prop :=
  ∀ l, l < (rliUnique y).length →
    (st.pools l).Perm (rliPool y l) ∧ st.consumed l < rliCounts y l

theorem rliEmit_spec (y : List Nat) (resh : Nat → List Nat → List Nat)
    (hresh : ∀ k xs, (resh k xs).Perm xs) (st : RliState) (l : Nat)
    (hl : l < (rliUnique y).length) (hinv : rliInv y st) :
    labelIdx y (rliEmit (rliCounts y) resh st l).1 = l ∧
      rliInv y (rliEmit (rliCounts y) resh st l).2 ∧
      (rliEmit (rliCounts y) resh st l).2.prev = st.prev := by
  obtain ⟨hperm, hcons⟩ := hinv l hl
  have hlen : (st.pools l).length = rliCounts y l := by
    rw [hperm.length_eq]
    rfl
  have hmem : (st.pools l).getD (st.consumed l) 0 ∈ rliPool y l := by
    apply hperm.mem_iff.mp
    rw [List.getD_eq_getElem _ _ (by rw [hlen]; exact hcons)]
    exact List.getElem_mem _
  have hfst : (rliEmit (rliCounts y) resh st l).1
      = (st.pools l).getD (st.consumed l) 0 := by
    simp only [rliEmit]
    split <;> rfl
  refine ⟨?_, ?_, ?_⟩
  · rw [hfst]
    exact mem_rliPool y l _ hmem
  · simp only [rliEmit]
    split
    · intro x hx
      by_cases hxl : x = l
      · subst hxl
        constructor
        · show (if x = x then resh st.nshuf (st.pools x) else st.pools x).Perm _
          rw [if_pos rfl]
          exact (hresh st.nshuf (st.pools x)).trans hperm
        · show (if x = x then 0 else st.consumed x) < _
          rw [if_pos rfl]
          exact rliCounts_pos y x hx
      · obtain ⟨h1, h2⟩ := hinv x hx
        constructor
        · show (if x = l then resh st.nshuf (st.pools l) else st.pools x).Perm _
          rw [if_neg hxl]
          exact h1
        · show (if x = l then 0 else st.consumed x) < _
          rw [if_neg hxl]
          exact h2
    · rename_i hcond
      intro x hx
      by_cases hxl : x = l
      · subst hxl
        refine ⟨(hinv x hx).1, ?_⟩
        show (if x = x then st.consumed x + 1 else st.consumed x) < _
        rw [if_pos rfl]
        omega
      · obtain ⟨h1, h2⟩ := hinv x hx
        refine ⟨h1, ?_⟩
        show (if x = l then st.consumed l + 1 else st.consumed x) < _
        rw [if_neg hxl]
        exact h2
  · simp only [rliEmit]
    split <;> rfl

theorem rliEmitN_spec (y : List Nat) (resh : Nat → List Nat → List Nat)
    (hresh : ∀ k xs, (resh k xs).Perm xs) :
    ∀ (m : Nat) (st : RliState) (l : Nat),
      l < (rliUnique y).length → rliInv y st →
      (rliEmitN (rliCounts y) resh m st l).1.map (labelIdx y)
          = List.replicate m l ∧
        rliInv y (rliEmitN (rliCounts y) resh m st l).2 ∧
        (rliEmitN (rliCounts y) resh m st l).2.prev = st.prev
  | 0, st, l, _, hinv => ⟨rfl, hinv, rfl⟩
  | m + 1, st, l, hl, hinv => by
      obtain ⟨h1, h2, h3⟩ := rliEmit_spec y resh hresh st l hl hinv
      obtain ⟨g1, g2, g3⟩ := rliEmitN_spec y resh hresh m
        (rliEmit (rliCounts y) resh st l).2 l hl h2
      refine ⟨?_, ?_, ?_⟩
      · simp only [rliEmitN, List.map_cons, h1, g1, List.replicate_succ]
      · simp only [rliEmitN]
        exact g2
      · simp only [rliEmitN]
        rw [g3, h3]

theorem rliRoundGo_pos_spec (y : List Nat) (resh : Nat → List Nat → List Nat)
    (hresh : ∀ k xs, (resh k xs).Perm xs) (perLabel : Nat) :
    ∀ (ls : List Nat) (k : Nat) (st : RliState), k ≠ 0 →
      (∀ l ∈ ls, l < (rliUnique y).length) → rliInv y st →
      (rliRoundGo (rliCounts y) resh perLabel true ls k st).1.map (labelIdx y)
          = ls.flatMap (fun l => List.replicate perLabel l) ∧
        rliInv y (rliRoundGo (rliCounts y) resh perLabel true ls k st).2 ∧
        (rliRoundGo (rliCounts y) resh perLabel true ls k st).2.prev = st.prev
  | [], _, st, _, _, hinv => ⟨rfl, hinv, rfl⟩
  | l :: ls, k, st, hk, hls, hinv => by
      obtain ⟨e1, e2, e3⟩ := rliEmitN_spec y resh hresh perLabel st l
        (hls l (List.mem_cons_self _ _)) hinv
      obtain ⟨g1, g2, g3⟩ := rliRoundGo_pos_spec y resh hresh perLabel ls (k + 1)
        (rliEmitN (rliCounts y) resh perLabel st l).2 (by omega)
        (fun x hx => hls x (List.mem_cons_of_mem _ hx)) e2
      have hcond : ¬ (k = 0 ∧ st.prev = some l) := fun hc => hk hc.1
      have hgo : rliRoundGo (rliCounts y) resh perLabel true (l :: ls) k st
          = ((rliEmitN (rliCounts y) resh perLabel st l).1
              ++ (rliRoundGo (rliCounts y) resh perLabel true ls (k + 1)
                  (rliEmitN (rliCounts y) resh perLabel st l).2).1,
             (rliRoundGo (rliCounts y) resh perLabel true ls (k + 1)
                (rliEmitN (rliCounts y) resh perLabel st l).2).2) := by
        simp [rliRoundGo, hcond]
      rw [hgo]
      refine ⟨?_, g2, by rw [g3, e3]⟩
      simp only [List.map_append, List.flatMap_cons, e1, g1]

theorem rliRoundGo_zero_spec (y : List Nat) (resh : Nat → List Nat → List Nat)
    (hresh : ∀ k xs, (resh k xs).Perm xs) (perLabel : Nat)
    (l : Nat) (ls : List Nat) (st : RliState)
    (hls : ∀ x ∈ l :: ls, x < (rliUnique y).length) (hinv : rliInv y st) :
    (rliRoundGo (rliCounts y) resh perLabel true (l :: ls) 0 st).1.map (labelIdx y)
        = (if st.prev = some l then ls else l :: ls).flatMap
            (fun x => List.replicate perLabel x) ∧
      rliInv y (rliRoundGo (rliCounts y) resh perLabel true (l :: ls) 0 st).2 ∧
      (rliRoundGo (rliCounts y) resh perLabel true (l :: ls) 0 st).2.prev
        = st.prev := by
  by_cases hp : st.prev = some l
  · obtain ⟨g1, g2, g3⟩ := rliRoundGo_pos_spec y resh hresh perLabel ls 1 st
      one_ne_zero (fun x hx => hls x (List.mem_cons_of_mem _ hx)) hinv
    have hgo : rliRoundGo (rliCounts y) resh perLabel true (l :: ls) 0 st
        = rliRoundGo (rliCounts y) resh perLabel true ls 1 st := by
      simp [rliRoundGo, hp]
    rw [hgo, if_pos hp]
    exact ⟨g1, g2, g3⟩
  · have hcond : ¬ (0 = 0 ∧ st.prev = some l) := fun hc => hp hc.2
    obtain ⟨e1, e2, e3⟩ := rliEmitN_spec y resh hresh perLabel st l
      (hls l (List.mem_cons_self _ _)) hinv
    obtain ⟨g1, g2, g3⟩ := rliRoundGo_pos_spec y resh hresh perLabel ls 1
      (rliEmitN (rliCounts y) resh perLabel st l).2 one_ne_zero
      (fun x hx => hls x (List.mem_cons_of_mem _ hx)) e2
    have hgo : rliRoundGo (rliCounts y) resh perLabel true (l :: ls) 0 st
        = ((rliEmitN (rliCounts y) resh perLabel st l).1
            ++ (rliRoundGo (rliCounts y) resh perLabel true ls 1
                (rliEmitN (rliCounts y) resh perLabel st l).2).1,
           (rliRoundGo (rliCounts y) resh perLabel true ls 1
              (rliEmitN (rliCounts y) resh perLabel st l).2).2) := by
      simp [rliRoundGo, hp]
    rw [hgo, if_neg hp]
    refine ⟨?_, g2, by rw [g3, e3]⟩
    simp only [List.map_append, List.flatMap_cons, e1, g1]

theorem rliRound_spec (y : List Nat) (resh : Nat → List Nat → List Nat)
    (hresh : ∀ k xs, (resh k xs).Perm xs) (perLabel : Nat) (st : RliState)
    (p : List Nat) (hp : p ≠ [])
    (hmem : ∀ l ∈ p, l < (rliUnique y).length) (hinv : rliInv y st) :
    (rliRound (rliCounts y) resh perLabel true st p).1.map (labelIdx y)
        = (if p.head? = st.prev then p.drop 1 else p).flatMap
            (fun l => List.replicate perLabel l) ∧
      rliInv y (rliRound (rliCounts y) resh perLabel true st p).2 ∧
      (rliRound (rliCounts y) resh perLabel true st p).2.prev = p.getLast? := by
  obtain ⟨l, ls, rfl⟩ := List.exists_cons_of_ne_nil hp
  obtain ⟨g1, g2, g3⟩ := rliRoundGo_zero_spec y resh hresh perLabel l ls st hmem hinv
  refine ⟨?_, ?_, ?_⟩
  · show (rliRoundGo (rliCounts y) resh perLabel true (l :: ls) 0 st).1.map
        (labelIdx y) = _
    rw [g1]
    congr 1
    simp only [List.head?_cons, List.drop_one, List.tail_cons]
    by_cases hp2 : st.prev = some l
    · rw [if_pos hp2, if_pos hp2.symm]
    · rw [if_neg hp2, if_neg (fun hc => hp2 hc.symm)]
  · intro x hx
    exact g2 x hx
  · show (match (l :: ls).getLast? with
        | some x => some x
        | none => (rliRoundGo (rliCounts y) resh perLabel true (l :: ls) 0 st).2.prev)
        = (l :: ls).getLast?
    have : ∃ a, (l :: ls).getLast? = some a := ⟨(l :: ls).getLast (by simp),
      List.getLast?_eq_getLast _ _⟩
    obtain ⟨a, ha⟩ := this
    rw [ha]

theorem rliRounds_spec (y : List Nat) (resh : Nat → List Nat → List Nat)
    (hresh : ∀ k xs, (resh k xs).Perm xs) (perLabel : Nat)
    (perms : Nat → List Nat) (hn : 1 ≤ (rliUnique y).length)
    (hperms : ∀ r, (perms r).Perm (List.range (rliUnique y).length)) :
    ∀ (m r : Nat) (st : RliState), rliInv y st →
      st.prev = (if r = 0 then none else (perms (r - 1)).getLast?) →
      ∀ j, j < m →
        ((rliRounds (rliCounts y) resh perLabel true perms m r st).getD j []).map
            (labelIdx y) = roundExpected perms perLabel (r + j)
  | 0, _, _, _, _, j, hj => absurd hj (Nat.not_lt_zero j)
  | m + 1, r, st, hinv, hprev, j, hj => by
      have hne : perms r ≠ [] := by
        have hl := (hperms r).length_eq
        rw [List.length_range] at hl
        intro hc
        rw [hc] at hl
        simp at hl
        omega
      have hmem : ∀ l ∈ perms r, l < (rliUnique y).length := fun l hl =>
        List.mem_range.mp ((hperms r).mem_iff.mp hl)
      obtain ⟨r1, r2, r3⟩ := rliRound_spec y resh hresh perLabel st (perms r)
        hne hmem hinv
      cases j with
      | zero =>
          show ((rliRound (rliCounts y) resh perLabel true st (perms r)).1).map
              (labelIdx y) = roundExpected perms perLabel (r + 0)
          rw [r1, Nat.add_zero]
          unfold roundExpected
          congr 1
          rcases Nat.eq_zero_or_pos r with hr | hr
          · subst hr
            rw [if_pos (Or.inl rfl), if_neg]
            rw [hprev]
            simp
            exact fun hc => by
              obtain ⟨a, b, hab⟩ := List.exists_cons_of_ne_nil hne
              rw [hab] at hc
              simp at hc
          · have hr0 : r ≠ 0 := by omega
            rw [hprev, if_neg hr0]
            by_cases heq : (perms r).head? = (perms (r - 1)).getLast?
            · rw [if_pos heq, if_neg (by
                intro hc
                rcases hc with hc | hc
                · exact hr0 hc
                · exact hc heq)]
            · rw [if_neg heq, if_pos (Or.inr heq)]
      | succ j =>
          have hnext := rliRounds_spec y resh hresh perLabel perms hn hperms m
            (r + 1) (rliRound (rliCounts y) resh perLabel true st (perms r)).2
            r2 (by
              rw [r3, if_neg (Nat.succ_ne_zero r)]
              simp)
            j (by omega)
          show ((rliRounds (rliCounts y) resh perLabel true perms m (r + 1)
              (rliRound (rliCounts y) resh perLabel true st (perms r)).2).getD j
                []).map (labelIdx y) = roundExpected perms perLabel (r + (j + 1))
          rw [hnext]
          congr 1
          omega

theorem count_flatMap_replicate :
    ∀ (ls : List Nat) (m l : Nat),
      (ls.flatMap (fun x => List.replicate m x)).count l = m * ls.count l
  | [], _, _ => by simp
  | x :: ls, m, l => by
      simp only [List.flatMap_cons, List.count_append,
        count_flatMap_replicate ls m l, List.count_cons]
      rw [List.count_replicate]
      by_cases h : l = x
      · subst h
        simp only [beq_self_eq_true, if_true, Nat.mul_add, Nat.mul_one]
        ring
      · simp only [beq_false_of_ne (fun hc => h hc.symm), if_false]
        have : (x == l) = false := beq_false_of_ne (fun hc => h hc.symm)
        simp [this]

/-- Witness for `c10_background_none_sentinel` at concrete streams. -/
theorem c10_background_none_sentinel_witness :
    bgDelivered [some 1, some 2] = [some 1, some 2].takeWhile Option.isSome ∧
      (none ∉ [some 1, some 2] ∧ bgDelivered [some 1, some 2] = [some 1, some 2]) ∧
      (none ∉ [some 1] ∧
        bgDelivered ([some 1] ++ none :: [some 2, some 3]) = [some 1]) :=
  ⟨c10_background_none_sentinel.1 [some 1, some 2],
    ⟨by decide, c10_background_none_sentinel.2.1 [some 1, some 2] (by decide)⟩,
    ⟨by decide, c10_background_none_sentinel.2.2 [some 1] [some 2, some 3]
      (by decide)⟩⟩

/-- **C7 (counterexample)**: with `y = [10, 20, 30]`, `per_label = 1`,
`repeat=True` and the (valid) permutation draws `[0,1,2]` then
`[1,0,2]`, the emitted stream is `0,1,2,1,0,2`; its window of
`per_label * n_labels = 3` consecutive outputs starting at position 1
carries the labels `20, 30, 20` — label `20` appears twice, not
`per_label = 1` times, refuting the claim. -/
theorem c7_window_counterexample :
    ¬ (∀ k : Nat,
        k + 3 ≤ ((random_label_index [10, 20, 30] 1 true (fun _ l => l)
            (fun r => if r = 0 then [0, 1, 2] else [1, 0, 2]) 2).flatten).length →
        ∀ v ∈ [10, 20, 30],
          ((((random_label_index [10, 20, 30] 1 true (fun _ l => l)
              (fun r => if r = 0 then [0, 1, 2] else [1, 0, 2]) 2).flatten.drop
                k).take 3).map
            (fun i => [10, 20, 30].getD i 0)).count v = 1) := by
  intro h
  exact absurd (h 1 (by decide) 20 (by decide)) (by decide)

/-- **C7 (amended)**: with `repeat=True` and valid random draws, each
single pass of the inner loop (one permutation of the labels) emits
each label exactly `per_label` times in permutation order — except
that when the pass's randomly drawn first label equals the previous
pass's last label, that label is skipped for the whole pass; windows
of `per_label * n_labels` consecutive outputs aligned to a non-skipped
pass therefore contain each label exactly `per_label` times, while
windows straddling pass boundaries need not (see the
counterexample). -/
theorem c7_round_structure (y : List Nat) (perLabel : Nat)
    (resh : Nat → List Nat → List Nat) (perms : Nat → List Nat) (rounds : Nat)
    (hy : y ≠ []) (hresh : ∀ k xs, (resh k xs).Perm xs)
    (hperms : ∀ r, (perms r).Perm (List.range (rliUnique y).length)) :
    (∀ r < rounds,
      ((random_label_index y perLabel true resh perms rounds).getD r []).map
          (labelIdx y) = roundExpected perms perLabel r) ∧
    (∀ r < rounds, (r = 0 ∨ (perms r).head? ≠ (perms (r - 1)).getLast?) →
      ∀ l < (rliUnique y).length,
        (((random_label_index y perLabel true resh perms rounds).getD r []).map
            (labelIdx y)).count l = perLabel) := by
  have hn : 1 ≤ (rliUnique y).length := by
    rcases Nat.eq_zero_or_pos (rliUnique y).length with h | h
    · exfalso
      have h1 : y.dedup.length = 0 := by
        have h2 := (sortNat_perm y.dedup).length_eq
        have h3 : (rliUnique y).length = (sortNat y.dedup).length := rfl
        omega
      exact hy ((List.dedup_eq_nil y).mp (List.length_eq_zero.mp h1))
    · exact h
  have hinv0 : rliInv y ⟨rliPool y, fun _ => 0, 0, none⟩ := by
    intro l hl
    exact ⟨List.Perm.refl _, rliCounts_pos y l hl⟩
  have hmain : ∀ r < rounds,
      ((random_label_index y perLabel true resh perms rounds).getD r []).map
        (labelIdx y) = roundExpected perms perLabel r := by
    intro r hr
    have := rliRounds_spec y resh hresh perLabel perms hn hperms rounds 0
      ⟨rliPool y, fun _ => 0, 0, none⟩ hinv0 (by simp) r hr
    simpa [random_label_index] using this
  refine ⟨hmain, ?_⟩
  intro r hr hskip l hl
  rw [hmain r hr]
  unfold roundExpected
  rw [if_pos hskip, count_flatMap_replicate]
  have hcount : (perms r).count l = 1 := by
    rw [(hperms r).count_eq]
    exact List.count_eq_one_of_mem (List.nodup_range _) (List.mem_range.mpr hl)
  rw [hcount, Nat.mul_one]

/-- Witness for `c7_round_structure` at `y = [10, 20, 30]`,
`per_label = 1`, identity shuffles and the permutation draws of the
counterexample. -/
theorem c7_round_structure_witness :
    (∀ r < 2,
      ((random_label_index [10, 20, 30] 1 true (fun _ l => l)
          (fun r => if r = 0 then [0, 1, 2] else [1, 0, 2]) 2).getD r []).map
        (labelIdx [10, 20, 30])
        = roundExpected (fun r => if r = 0 then [0, 1, 2] else [1, 0, 2]) 1 r) ∧
    (∀ r < 2,
      (r = 0 ∨ ((fun r => if r = 0 then [0, 1, 2] else [1, 0, 2]) r).head?
          ≠ ((fun r => if r = 0 then [0, 1, 2] else [1, 0, 2]) (r - 1)).getLast?) →
      ∀ l < (rliUnique [10, 20, 30]).length,
        (((random_label_index [10, 20, 30] 1 true (fun _ l => l)
            (fun r => if r = 0 then [0, 1, 2] else [1, 0, 2]) 2).getD r []).map
          (labelIdx [10, 20, 30])).count l = 1) :=
  c7_round_structure [10, 20, 30] 1 (fun _ l => l)
    (fun r => if r = 0 then [0, 1, 2] else [1, 0, 2]) 2
    (by decide) (fun _ xs => List.Perm.refl xs)
    (by
      intro r
      by_cases h : r = 0 <;> simp only [h, if_true, if_false] <;> decide)

end PyGen
